import Mathlib

/-! Spaced-repetition scheduling core of `words-telegram-bot`.

A shallow embedding of `repetition.go` (the `Repetition` table, the legacy
stage migration of `NewRepetition`, `Save`, `Repeat`, `Delete` and the
scheduling algorithm of `Answer`) and of the loop of `reminder.go`, followed by
theorems about them.

Modelling conventions.

* `int64` values are `Int`; every arithmetic result that Go stores in an
  `int64` goes through `wrap64` (two's complement wrap-around).
* `float64` values are the rationals they denote.  Every floating-point
  operation is the exact operation followed by `F64.round`, rounding to the
  nearest value with a 53 bit significand, ties to even.  The exponent range is
  not bounded: all magnitudes in this program lie between `1e-13` and `1e40`,
  far inside the normal range of `float64`, so neither overflow nor subnormal
  numbers occur.
* A conversion `int64(f)` truncates toward zero.  For a value outside the
  `int64` range Go leaves the result to the implementation; it is supplied by
  the parameter `oob`.
* Go strings are lists of characters (valid UTF-8 text).
* The wall clock is a parameter of every operation that reads it.
-/

namespace WordsBot

/-! ## Machine integers -/

/-- Two's complement wrap-around of an integer into the `int64` range. -/
def wrap64 (x : Int) : Int := (x + 2 ^ 63) % 2 ^ 64 - 2 ^ 63

/-- Largest `int64`. -/
def maxInt64 : Int := 2 ^ 63 - 1

/-- Smallest `int64`. -/
def minInt64 : Int := -(2 ^ 63)

/-! ## `float64` arithmetic -/

namespace F64

/-- Round a rational to the nearest integer, ties to the even one. -/
def rne (q : ℚ) : Int :=
  if q - ⌊q⌋ < 1 / 2 then ⌊q⌋
  else if 1 / 2 < q - ⌊q⌋ then ⌊q⌋ + 1
  else if ⌊q⌋ % 2 = 0 then ⌊q⌋ else ⌊q⌋ + 1

/-- Exponent of the unit in the last place of the binade that holds `x`:
`2 ^ (ulpExp x + 52) ≤ |x| < 2 ^ (ulpExp x + 53)`. -/
def ulpExp (x : ℚ) : Int := Int.log 2 |x| - 52

/-- Round to nearest `float64`, ties to even (53 bit significand). -/
def round (x : ℚ) : ℚ :=
  if x = 0 then 0 else (rne (x / (2 : ℚ) ^ ulpExp x) : ℚ) * (2 : ℚ) ^ ulpExp x

/-- Go `float64(n)` for an integer `n`. -/
def ofInt (n : Int) : ℚ := round (n : ℚ)

/-- Go `a + b` on `float64`. -/
def add (a b : ℚ) : ℚ := round (a + b)

/-- Go `a * b` on `float64`. -/
def mul (a b : ℚ) : ℚ := round (a * b)

/-- Go `a / b` on `float64` (`b` is a non-zero constant at every use). -/
def div (a b : ℚ) : ℚ := round (a / b)

/-- Discard the fraction: truncation toward zero. -/
def trunc (x : ℚ) : Int := if 0 ≤ x then ⌊x⌋ else ⌈x⌉

/-- Go `int64(f)`: truncation toward zero when the result fits `int64`;
otherwise the implementation-dependent value `oob f` (some `int64`). -/
def toInt64 (oob : ℚ → Int) (x : ℚ) : Int :=
  if minInt64 ≤ trunc x ∧ trunc x ≤ maxInt64 then trunc x else wrap64 (oob x)

end F64

/-- The out-of-range result of `int64(f)` on amd64: the "integer indefinite"
value `-2^63` for every operand. -/
def oobAmd64 (_ : ℚ) : Int := minInt64

/-! ## `time.Duration` -/

/-- Go `time.Second` in nanoseconds. -/
def Second : Int := 1000000000

/-- Go `time.Hour` in nanoseconds. -/
def Hour : Int := 3600 * Second

/-- Go `Duration.Seconds`: `float64(d / Second) + float64(d % Second) / 1e9`. -/
def Duration.Seconds (d : Int) : ℚ :=
  F64.add (F64.ofInt (d.tdiv Second)) (F64.div (F64.ofInt (d.tmod Second)) 1000000000)

/-- Go `Duration.Hours`: `float64(d / Hour) + float64(d % Hour) / (60*60*1e9)`. -/
def Duration.Hours (d : Int) : ℚ :=
  F64.add (F64.ofInt (d.tdiv Hour)) (F64.div (F64.ofInt (d.tmod Hour)) 3600000000000)

/-- Go `t.Sub(u)` for two instants given in nanoseconds since the epoch: the
difference, saturated to the `Duration` range as package `time` documents. -/
def timeSub (t u : Int) : Int := max minInt64 (min maxInt64 (t - u))

/-! ## The answer qualities -/

/-- Go `type AnswerEase int`. -/
abbrev AnswerEase := Int

/-- Constant `AnswerAgain` (`iota` 0). -/
def AnswerAgain : AnswerEase := 0
/-- Constant `AnswerHard`. -/
def AnswerHard : AnswerEase := 1
/-- Constant `AnswerGood`. -/
def AnswerGood : AnswerEase := 2
/-- Constant `AnswerEasy`. -/
def AnswerEasy : AnswerEase := 3

/-! ## The scheduling computation of `Answer` (lines 247-294) -/

/-- Constant `easyBonus = 1.3` as a `float64`. -/
def easyBonus : ℚ := F64.round (13 / 10)

/-- Whole days between the last review (`last_update`, Unix seconds) and the
clock reading `now` (nanoseconds since the epoch):
`int64(time.Now().Sub(time.Unix(last_update, 0)).Hours() / 24)`.
`time.Unix(last_update, 0)` is taken as the instant `last_update * Second`.
That is the instant Go builds for `last_update ≤ 2^63 - 1 - 62135596800`;
beyond it the addition of the offset of year 1 inside `time.Unix` wraps
around, which no row written at a clock reading reaches and which lies outside
this definition. -/
def elapsedDays (oob : ℚ → Int) (now last_update : Int) : Int :=
  F64.toInt64 oob (F64.div (Duration.Hours (timeSub now (last_update * Second))) 24)

/-- Interval corrected for the actual time since the previous review:
`if d > ivl { ivl = d }`. -/
def effectiveIvl (ivl d : Int) : Int := if d > ivl then d else ivl

/-- The `switch answ` statement: the adjusted (not yet clamped) ease and the
multiplier before the cap. -/
def answerSwitch (ease : Int) (answ : AnswerEase) : Int × ℚ :=
  if answ = AnswerAgain then (wrap64 (ease - 20), 1)
  else if answ = AnswerHard then (wrap64 (ease - 15), F64.round (6 / 5))
  else if answ = AnswerGood then (ease, F64.div (F64.ofInt ease) 100)
  else if answ = AnswerEasy then
    (wrap64 (ease + 15), F64.div (F64.mul (F64.ofInt (wrap64 (ease + 15))) easyBonus) 100)
  else (ease, 1)

/-- The multiplier after `mult = math.Min(mult, 13)`. -/
def multiplier (ease : Int) (answ : AnswerEase) : ℚ := min (answerSwitch ease answ).2 13

/-- The clamp `if ease < 130 { ease = 130 } else if ease > 1300 { ease = 1300 }`. -/
def clampEase (ease : Int) : Int :=
  if ease < 130 then 130 else if ease > 1300 then 1300 else ease

/-- The ease written back by `Answer`. -/
def newEase (ease : Int) (answ : AnswerEase) : Int := clampEase (answerSwitch ease answ).1

/-- The `switch ivl` statement of the non-`Again` branch, on the effective
interval `ivl` and the capped multiplier `mult`. -/
def growIvl (oob : ℚ → Int) (ivl : Int) (mult : ℚ) : Int :=
  if ivl = 0 then 1
  else if ivl = 1 then 3
  else
    if F64.toInt64 oob (F64.mul (F64.ofInt ivl) mult) = ivl then wrap64 (ivl + 1)
    else F64.toInt64 oob (F64.mul (F64.ofInt ivl) mult)

/-- The four values `Answer` writes: `ease`, `ivl`, `last_updated_seconds`,
`next_review_seconds`. -/
structure Sched where
  /-- New ease. -/
  ease : Int
  /-- New interval in days. -/
  ivl : Int
  /-- Time of this review, Unix seconds. -/
  last_updated_seconds : Int
  /-- Time of the next review, Unix seconds. -/
  next_review_seconds : Int
deriving DecidableEq

/-- Lines 247-294 of `Answer`: from the stored `ease`, `ivl`, `last_update`,
the answer and the two clock readings (`now` in nanoseconds for the elapsed
time, `t` in Unix seconds for the update) to the values written back.
`againDelay` is the `Duration` field of `Repetition`. -/
def schedule (oob : ℚ → Int) (againDelay : Int) (now t : Int)
    (ease ivl last_update : Int) (answ : AnswerEase) : Sched :=
  let ivl := effectiveIvl ivl (elapsedDays oob now last_update)
  let mult := multiplier ease answ
  let ease := newEase ease answ
  if answ = AnswerAgain then
    { ease := ease, ivl := 0, last_updated_seconds := t,
      next_review_seconds := wrap64 (t + F64.toInt64 oob (Duration.Seconds againDelay)) }
  else
    { ease := ease, ivl := growIvl oob ivl mult, last_updated_seconds := t,
      next_review_seconds :=
        wrap64 (t + wrap64 (growIvl oob ivl mult *
          F64.toInt64 oob (F64.mul (Duration.Seconds Hour) 24))) }

/-! ## Go strings -/

/-- A Go string holding valid UTF-8 text, as its list of characters. -/
abbrev GoString := List Char

/-- Left-to-right scan of `strings.ReplaceAll` for a non-empty `old`; `skip`
counts the characters of the occurrence just replaced that are still to be
consumed, so that occurrences do not overlap. -/
def replaceGo (old new : GoString) : Nat → GoString → GoString
  | _, [] => []
  | skip + 1, _ :: cs => replaceGo old new skip cs
  | 0, c :: cs =>
    if old <+: c :: cs then new ++ replaceGo old new (old.length - 1) cs
    else c :: replaceGo old new 0 cs

/-- Go `strings.ReplaceAll(s, old, new)`: every non-overlapping occurrence of
`old`, leftmost first, replaced by `new`; an empty `old` matches at the
beginning of the string and after each character. -/
def ReplaceAll (s old new : GoString) : GoString :=
  if old = [] then new ++ s.flatMap (fun c => c :: new) else replaceGo old new 0 s

/-- Left-to-right scan of `strings.Split` for a non-empty `sep`; `cur` is the
current piece, reversed. -/
def splitGo (sep : GoString) : Nat → GoString → GoString → List GoString
  | _, cur, [] => [cur.reverse]
  | skip + 1, cur, _ :: cs => splitGo sep skip cur cs
  | 0, cur, c :: cs =>
    if sep <+: c :: cs then cur.reverse :: splitGo sep (sep.length - 1) [] cs
    else splitGo sep 0 (c :: cur) cs

/-- Go `strings.Split(s, sep)`. -/
def Split (s sep : GoString) : List GoString :=
  if sep = [] then s.map (fun c => [c]) else splitGo sep 0 [] s

/-- Go `strings.Join(elems, sep)`. -/
def Join : List GoString → GoString → GoString
  | [], _ => []
  | [a], _ => a
  | a :: b :: rest, sep => a ++ sep ++ Join (b :: rest) sep

/-- The paragraph separator `"\n\n"`. -/
def paragraphSep : GoString := ['\n', '\n']

/-- The mask `"********"`. -/
def mask : GoString := List.replicate 8 '*'

/-- The presentation transform of `Repeat` (lines 158-163): strip the first
paragraph when there is more than one, then mask the word. -/
def presentDefinition (w d : GoString) : GoString :=
  let s := Split d paragraphSep
  let d := if s.length > 1 then Join (s.drop 1) paragraphSep else d
  ReplaceAll d w mask

/-! ## The `Repetition` table -/

/-- One row of table `Repetition`.  The three columns added by
`ALTER TABLE` are `NULL` in rows written under the legacy schema.  `word` and
`definition` hold text as it was inserted (text that SQLite would store as a
number under the declared type `STRING` is outside the model). -/
structure Row where
  /-- Column `chat_id`. -/
  chat_id : Int
  /-- Column `word`. -/
  word : GoString
  /-- Column `definition`. -/
  definition : GoString
  /-- Column `stage` (obsolete). -/
  stage : Int
  /-- Column `last_updated_seconds`. -/
  last_updated_seconds : Int
  /-- Column `next_review_seconds`. -/
  next_review_seconds : Option Int
  /-- Column `ease`. -/
  ease : Option Int
  /-- Column `ivl`. -/
  ivl : Option Int
deriving DecidableEq

/-- Go `struct Repetition`; `db` is the content of table `Repetition` in
row order, `againDelay` a `Duration` in nanoseconds. -/
structure Repetition where
  /-- Rows of the table. -/
  db : List Row
  /-- Field `initialEase`. -/
  initialEase : Int
  /-- Field `initialIvl`. -/
  initialIvl : Int
  /-- Field `againDelay`. -/
  againDelay : Int
deriving DecidableEq

/-! ## `NewRepetition`: the legacy stage migration -/

/-- Constant `maxStages`. -/
def maxStages : Nat := 1000000

/-- Go `int64(s.Seconds())` for a `Duration` `s`. -/
def durationSeconds (oob : ℚ → Int) (s : Int) : Int := F64.toInt64 oob (Duration.Seconds s)

/-- Rows inserted into the temporary table `Stages(id, duration)` (lines
43-49): one per configured stage, then the entry with id `maxStages` holding
the last configured duration. -/
def stagesTable (oob : ℚ → Int) (stages : List Int) : List (Int × Int) :=
  (stages.enum.map fun ks => ((ks.1 : Int), durationSeconds oob ks.2)) ++
    [((maxStages : Int), durationSeconds oob (stages.getLastD 0))]

/-- The scalar subquery
`SELECT Stages.duration FROM Stages WHERE Stages.id = Repetition.stage`:
the duration of the first matching row, `NULL` when no row matches. -/
def stageDuration (tbl : List (Int × Int)) (stage : Int) : Option Int :=
  (tbl.find? fun e => e.1 = stage).map fun e => e.2

/-- The `UPDATE` of lines 93-108 on one row: a row whose
`next_review_seconds` is `NULL` gets
`last_updated_seconds + duration` (`NULL` when the subquery is `NULL`),
ease 250 and interval 0; any other row is not touched.  The sum is the exact
sum SQLite computes for 64-bit integers whose sum fits 64 bits. -/
def migrateRow (tbl : List (Int × Int)) (r : Row) : Row :=
  match r.next_review_seconds with
  | some _ => r
  | none =>
    { r with
      next_review_seconds := (stageDuration tbl r.stage).map fun d => r.last_updated_seconds + d
      ease := some 250
      ivl := some 0 }

/-- The `UPDATE` of lines 93-108 on the table. -/
def migrate (tbl : List (Int × Int)) (db : List Row) : List Row := db.map (migrateRow tbl)

/-- Go `NewRepetition(dbPath, stages)`, on the rows `db` stored at `dbPath`;
`none` stands for the two panics on a bad stage list. -/
def NewRepetition (oob : ℚ → Int) (db : List Row) (stages : List Int) : Option Repetition :=
  if stages.length = 0 then none
  else if stages.length ≥ maxStages then none
  else some
    { db := migrate (stagesTable oob stages) db
      initialEase := 250
      initialIvl := 0
      againDelay := 20 * Second }

/-! ## `Save`, `Repeat`, `Answer`, `Delete` -/

/-- Go `Save`, at clock reading `t` (Unix seconds): the `INSERT`.  `word`
and `definition` are stored as the text given (see `Row` for the text SQLite
would store as a number). -/
def Save (oob : ℚ → Int) (r : Repetition) (t : Int) (chatID : Int)
    (word definition : GoString) : Repetition :=
  { r with
    db := r.db ++
      [{ chat_id := chatID, word := word, definition := definition, stage := 0,
         ease := some r.initialEase, ivl := some r.initialIvl,
         last_updated_seconds := t,
         next_review_seconds :=
           some (wrap64 (t + wrap64 (r.initialIvl * F64.toInt64 oob (Duration.Seconds Hour)))) }] }

/-- The `WHERE` clause of `Repeat` and `RepeatWord`: a comparison with `NULL`
is not true. -/
def isDue (now chatID : Int) (row : Row) : Bool :=
  match row.next_review_seconds with
  | some nr => decide (nr ≤ now) && decide (row.chat_id = chatID)
  | none => false

/-- Go `Repeat`, at clock reading `now` (Unix seconds); `none` is the error
of `row.Scan` when no row is due. -/
def Repeat (r : Repetition) (now : Int) (chatID : Int) : Option GoString :=
  (r.db.find? (isDue now chatID)).map fun row => presentDefinition row.word row.definition

/-- Go `RepeatWord`. -/
def RepeatWord (r : Repetition) (now : Int) (chatID : Int) : Option GoString :=
  (r.db.find? (isDue now chatID)).map fun row => row.word

/-- The `WHERE word = .. AND chat_id = ..` clause. -/
def isItem (chatID : Int) (word : GoString) (row : Row) : Bool :=
  decide (row.word = word) && decide (row.chat_id = chatID)

/-- The `UPDATE` of `Answer` on one row. -/
def updateRow (chatID : Int) (word : GoString) (s : Sched) (row : Row) : Row :=
  if isItem chatID word row then
    { row with
      ease := some s.ease, ivl := some s.ivl,
      last_updated_seconds := s.last_updated_seconds,
      next_review_seconds := some s.next_review_seconds }
  else row

/-- Go `Answer`, with the two clock readings `now` (nanoseconds since the
epoch, line 248) and `t` (Unix seconds, line 272).  `none` is the error
return: no row for `(chatID, word)`, or a `NULL` that does not scan into
`int64`. -/
def Answer (oob : ℚ → Int) (r : Repetition) (now t : Int) (chatID : Int)
    (word : GoString) (answ : AnswerEase) : Option Repetition :=
  match r.db.find? (isItem chatID word) with
  | none => none
  | some row =>
    match row.ease, row.ivl with
    | some ease, some ivl =>
      some { r with
        db := r.db.map (updateRow chatID word
          (schedule oob r.againDelay now t ease ivl row.last_updated_seconds answ)) }
    | _, _ => none

/-- Go `Exists`. -/
def Exists (r : Repetition) (chatID : Int) (word : GoString) : Bool :=
  decide ((r.db.filter (isItem chatID word)).length > 0)

/-- Go `GetDefinition`. -/
def GetDefinition (r : Repetition) (chatID : Int) (word : GoString) : Option GoString :=
  (r.db.find? (isItem chatID word)).map fun row => row.definition

/-- Go `Delete`. -/
def Delete (r : Repetition) (chatID : Int) (word : GoString) : Repetition :=
  { r with db := r.db.filter fun row => !isItem chatID word row }

/-! ## Sequences of calls -/

/-- One call of the store API, with the clock readings it takes. -/
inductive Op where
  /-- Call `Save(chatID, word, definition)` at Unix second `t`. -/
  | save (t chatID : Int) (word definition : GoString)
  /-- Call `Answer(chatID, word, answ)` with the clock readings `now`, `t`. -/
  | answer (now t chatID : Int) (word : GoString) (answ : AnswerEase)
  /-- Call `Delete(chatID, word)`. -/
  | delete (chatID : Int) (word : GoString)

/-- The store after one call; an `Answer` that returns an error has written
nothing. -/
def step (oob : ℚ → Int) (r : Repetition) : Op → Repetition
  | .save t chatID word definition => Save oob r t chatID word definition
  | .answer now t chatID word answ => (Answer oob r now t chatID word answ).getD r
  | .delete chatID word => Delete r chatID word

/-- The store after a sequence of calls. -/
def run (oob : ℚ → Int) (r : Repetition) (ops : List Op) : Repetition :=
  ops.foldl (step oob) r

/-- The Unix second a call reads from the clock lies within `2^62` of the
epoch. -/
def opClockOk : Op → Bool
  | .save t _ _ _ => decide (-(2 ^ 62) ≤ t ∧ t ≤ 2 ^ 62)
  | .answer _ t _ _ _ => decide (-(2 ^ 62) ≤ t ∧ t ≤ 2 ^ 62)
  | .delete _ _ => true

/-- The relation between the three scheduling columns of a row:
`next_review_seconds = last_updated_seconds + ivl * 86400`, or `ivl = 0` and
`next_review_seconds = last_updated_seconds + 20` (the state an `Again` answer
leaves). -/
def scheduleConsistent (row : Row) : Bool :=
  match row.ivl, row.next_review_seconds with
  | some i, some nr =>
    decide (nr = row.last_updated_seconds + i * 86400 ∨
      (i = 0 ∧ nr = row.last_updated_seconds + 20))
  | _, _ => false

/-- The number of positions at which two tables hold different rows. -/
def rowsChanged (before after : List Row) : Nat :=
  ((before.zip after).filter fun p => decide (p.1 ≠ p.2)).length

/-! ## `Reminder` (reminder.go) -/

/-- Table `Reminders`: `last_reminder_time_seconds` by its primary key
`chat_id`; `none` where the table has no row. -/
abbrev Reminders := Int → Option Int

/-- The state of a `Reminder`: the table and the chats `sendNofication` was
called for, oldest first. -/
structure ReminderState where
  /-- Table `Reminders`. -/
  db : Reminders
  /-- Chat ids of the notifications sent. -/
  sent : List Int

/-- Go `Reminder.LastReminderTime`, in nanoseconds since the epoch:
`time.Unix(u, 0)` with the stored `u`, and `u = 0` when the row is missing
(the error is only logged by `Loop`). -/
def LastReminderTime (db : Reminders) (chatID : Int) : Int :=
  (db chatID).getD 0 * Second

/-- Go `Reminder.UpdateLastReminderTime` at Unix second `t`:
`INSERT OR REPLACE` of the row of `chatID`. -/
def UpdateLastReminderTime (db : Reminders) (chatID t : Int) : Reminders :=
  fun c => if c = chatID then some t else db c

/-- The body of `for chatID := range cs` in `Loop` for one chat; `clock`
gives the two readings taken for the chat: `time.Now()` of line 99 in
nanoseconds and `time.Now().Unix()` of `UpdateLastReminderTime`. -/
def remindChat (clock : Int → Int × Int) (s : ReminderState) (chatID : Int) : ReminderState :=
  if (clock chatID).1 > LastReminderTime s.db chatID + 24 * Hour then
    { db := UpdateLastReminderTime s.db chatID (clock chatID).2, sent := s.sent ++ [chatID] }
  else s

/-- One pass of the body of `Loop`: `cs` are the keys of the map returned by
`fetchSettings`, in the order the `range` visits them. -/
def loopPass (s : ReminderState) (pass : List Int × (Int → Int × Int)) : ReminderState :=
  pass.1.foldl (remindChat pass.2) s

/-- Go `Reminder.Loop`: the pass made on entry, then one pass for each value
received from `ticker` before `cancel` is received. -/
def Loop (s : ReminderState) (first : List Int × (Int → Int × Int))
    (ticks : List (List Int × (Int → Int × Int))) : ReminderState :=
  (first :: ticks).foldl loopPass s

/-! ## Sample data -/

/-- A migrated row: chat 1, word `alma`, ease 1300, interval 5. -/
def sampleRow : Row :=
  { chat_id := 1, word := "alma".toList, definition := "fruit".toList, stage := 0,
    last_updated_seconds := 0, next_review_seconds := some 432000,
    ease := some 1300, ivl := some 5 }

/-- A store holding `sampleRow` only, configured as by `NewRepetition`. -/
def sampleStore : Repetition :=
  { db := [sampleRow], initialEase := 250, initialIvl := 0, againDelay := 20 * Second }

/-- The store `NewRepetition` builds on an empty table. -/
def emptyStore : Repetition :=
  { db := [], initialEase := 250, initialIvl := 0, againDelay := 20 * Second }

/-- A store with one due item whose word is an asterisk. -/
def starStore : Repetition :=
  { db := [{ chat_id := 1, word := "*".toList, definition := "times\n\n2 * 3".toList,
             stage := 0, last_updated_seconds := 0, next_review_seconds := some 0,
             ease := some 250, ivl := some 0 }],
    initialEase := 250, initialIvl := 0, againDelay := 20 * Second }

/-- A row written under the legacy schema, at stage 5. -/
def legacyRow : Row :=
  { chat_id := 1, word := "alma".toList, definition := "fruit".toList, stage := 5,
    last_updated_seconds := 1000, next_review_seconds := none, ease := none, ivl := none }

/-- A row written under the legacy schema, at stage 1. -/
def legacyStageOne : Row :=
  { chat_id := 1, word := "alma".toList, definition := "fruit".toList, stage := 1,
    last_updated_seconds := 1000, next_review_seconds := none, ease := none, ivl := none }

/-- A consistent row with ease 1300 and an interval of `2^45` days. -/
def longRow : Row :=
  { chat_id := 1, word := "alma".toList, definition := "fruit".toList, stage := 0,
    last_updated_seconds := 0, next_review_seconds := some 3039929748475084800,
    ease := some 1300, ivl := some 35184372088832 }

/-- The row `Save(1, "alma", "fruit")` inserts at second 0. -/
def freshAlma : Row :=
  { chat_id := 1, word := "alma".toList, definition := "fruit".toList, stage := 0,
    last_updated_seconds := 0, next_review_seconds := some 0,
    ease := some 250, ivl := some 0 }

/-- The item `alma` with ease 250 and interval 170, last answered at second
0. -/
def halfYearAlma : Row :=
  { chat_id := 1, word := "alma".toList, definition := "fruit".toList, stage := 0,
    last_updated_seconds := 0, next_review_seconds := some 14688000,
    ease := some 250, ivl := some 170 }

/-- The item `alma` with ease 250 and interval 115740, last answered at
second 0. -/
def agesAlma : Row :=
  { chat_id := 1, word := "alma".toList, definition := "fruit".toList, stage := 0,
    last_updated_seconds := 0, next_review_seconds := some 9999936000,
    ease := some 250, ivl := some 115740 }

/-! ## The formulas as the specification words them -/

/-- Rounding to the nearest integer (halves up). -/
def specRound (x : ℚ) : Int := ⌊x + 1 / 2⌋

/-- The new interval `max(round(i*m), i+1)` of the specification. -/
def specNewIvl (i : Int) (m : ℚ) : Int := max (specRound (i * m)) (i + 1)

/-- The elapsed whole days of the specification: the whole days in the time
from the last review (`last_update`, Unix seconds) to the clock reading `now`
(nanoseconds since the epoch). -/
def specElapsedDays (now last_update : Int) : Int :=
  (now - last_update * Second) / (24 * Hour)

/-! ## Theorems: rounding to `float64` -/

namespace F64

theorem rne_intCast (n : Int) : rne (n : ℚ) = n := by
  simp [rne]

theorem floor_le_rne (q : ℚ) : ⌊q⌋ ≤ rne q := by
  unfold rne; split_ifs <;> omega

theorem rne_le_floor_add_one (q : ℚ) : rne q ≤ ⌊q⌋ + 1 := by
  unfold rne; split_ifs <;> omega

theorem intCast_le_rne {n : Int} {q : ℚ} (h : (n : ℚ) ≤ q) : n ≤ rne q :=
  le_trans (Int.le_floor.mpr h) (floor_le_rne q)

theorem rne_le_intCast {n : Int} {q : ℚ} (h : q ≤ (n : ℚ)) : rne q ≤ n := by
  rcases eq_or_lt_of_le h with h | h
  · rw [h, rne_intCast]
  · have : ⌊q⌋ < n := Int.floor_lt.mpr h
    have := rne_le_floor_add_one q
    omega

theorem rne_mono {p q : ℚ} (h : p ≤ q) : rne p ≤ rne q := by
  rcases lt_or_le ⌊p⌋ ⌊q⌋ with hf | hf
  · have := rne_le_floor_add_one p
    have := floor_le_rne q
    omega
  · have hfe : ⌊p⌋ = ⌊q⌋ := le_antisymm (Int.floor_mono h) hf
    unfold rne
    rw [hfe]
    split_ifs <;> first | omega | (exfalso; linarith)

theorem abs_rne_sub_le (q : ℚ) : |(rne q : ℚ) - q| ≤ 1 / 2 := by
  have h1 := Int.floor_le q
  have h2 := Int.lt_floor_add_one q
  unfold rne
  rw [abs_le]
  split_ifs <;> push_cast <;> constructor <;> linarith

theorem rne_eq_of_abs_sub_lt {q : ℚ} {m : Int} (h : |q - m| < 1 / 2) : rne q = m := by
  rw [abs_lt] at h
  have hb := abs_rne_sub_le q
  rw [abs_le] at hb
  have h3 : ((rne q - m : Int) : ℚ) < 1 := by push_cast; linarith [hb.1, hb.2, h.1, h.2]
  have h4 : (-1 : ℚ) < ((rne q - m : Int) : ℚ) := by push_cast; linarith [hb.1, hb.2, h.1, h.2]
  have h5 : rne q - m < 1 := by exact_mod_cast h3
  have h6 : -1 < rne q - m := by exact_mod_cast h4
  omega

theorem two_zpow_pos (k : Int) : (0 : ℚ) < (2 : ℚ) ^ k := zpow_pos (by norm_num) k

theorem ulpExp_spec {x : ℚ} (hx : x ≠ 0) :
    (2 : ℚ) ^ (ulpExp x + 52) ≤ |x| ∧ |x| < (2 : ℚ) ^ (ulpExp x + 53) := by
  have hpos : 0 < |x| := abs_pos.mpr hx
  have h1 := Int.zpow_log_le_self (b := 2) (by norm_num) hpos
  have h2 := Int.lt_zpow_succ_log_self (b := 2) (by norm_num) |x|
  have e1 : ulpExp x + 52 = Int.log 2 |x| := by unfold ulpExp; ring
  have e2 : ulpExp x + 53 = Int.log 2 |x| + 1 := by unfold ulpExp; ring
  rw [e1, e2]
  exact ⟨by simpa using h1, by simpa using h2⟩

theorem ulpExp_unique {x : ℚ} {k : Int} (h1 : (2 : ℚ) ^ (k + 52) ≤ |x|)
    (h2 : |x| < (2 : ℚ) ^ (k + 53)) : ulpExp x = k := by
  have hpos : 0 < |x| := lt_of_lt_of_le (two_zpow_pos _) h1
  have a1 : k + 52 ≤ Int.log 2 |x| :=
    (Int.zpow_le_iff_le_log (b := 2) (by norm_num) hpos).mp (by simpa using h1)
  have a2 : Int.log 2 |x| < k + 53 :=
    (Int.lt_zpow_iff_log_lt (b := 2) (by norm_num) hpos).mp (by simpa using h2)
  unfold ulpExp; omega

theorem ulpExp_mono {x y : ℚ} (hx : 0 < x) (h : x ≤ y) : ulpExp x ≤ ulpExp y := by
  have hy : 0 < y := lt_of_lt_of_le hx h
  unfold ulpExp
  rw [abs_of_pos hx, abs_of_pos hy]
  have := Int.log_mono_right (b := 2) hx h
  omega

theorem round_zero : round 0 = 0 := by simp [round]

theorem round_of_ne_zero {x : ℚ} (hx : x ≠ 0) :
    round x = (rne (x / (2 : ℚ) ^ ulpExp x) : ℚ) * (2 : ℚ) ^ ulpExp x := by
  simp [round, hx]

/-- The scaled significand of a positive number lies in `[2^52, 2^53)`. -/
theorem scaled_bounds {x : ℚ} (hx : 0 < x) :
    (2 : ℚ) ^ (52 : ℕ) ≤ x / (2 : ℚ) ^ ulpExp x ∧ x / (2 : ℚ) ^ ulpExp x < (2 : ℚ) ^ (53 : ℕ) := by
  obtain ⟨h1, h2⟩ := ulpExp_spec (ne_of_gt hx)
  rw [abs_of_pos hx] at h1 h2
  have hp := two_zpow_pos (ulpExp x)
  rw [zpow_add₀ (by norm_num : (2 : ℚ) ≠ 0)] at h1 h2
  constructor
  · rw [le_div_iff₀ hp]
    calc (2 : ℚ) ^ (52 : ℕ) * 2 ^ ulpExp x = 2 ^ ulpExp x * 2 ^ (52 : ℤ) := by
          rw [mul_comm]; norm_cast
      _ ≤ x := h1
  · rw [div_lt_iff₀ hp]
    calc x < 2 ^ ulpExp x * 2 ^ (53 : ℤ) := h2
      _ = (2 : ℚ) ^ (53 : ℕ) * 2 ^ ulpExp x := by rw [mul_comm]; norm_cast

theorem round_pos_bounds {x : ℚ} (hx : 0 < x) :
    (2 : ℚ) ^ (ulpExp x + 52) ≤ round x ∧ round x ≤ (2 : ℚ) ^ (ulpExp x + 53) := by
  obtain ⟨h1, h2⟩ := scaled_bounds hx
  have hp := two_zpow_pos (ulpExp x)
  have a1 : ((2 ^ 52 : Int) : ℚ) ≤ x / (2 : ℚ) ^ ulpExp x := by push_cast; exact h1
  have a2 : x / (2 : ℚ) ^ ulpExp x ≤ ((2 ^ 53 : Int) : ℚ) := by push_cast; exact le_of_lt h2
  have b1 : ((2 ^ 52 : Int) : ℚ) ≤ (rne (x / (2 : ℚ) ^ ulpExp x) : ℚ) := by
    exact_mod_cast intCast_le_rne a1
  have b2 : (rne (x / (2 : ℚ) ^ ulpExp x) : ℚ) ≤ ((2 ^ 53 : Int) : ℚ) := by
    exact_mod_cast rne_le_intCast a2
  rw [round_of_ne_zero (ne_of_gt hx), zpow_add₀ (by norm_num : (2 : ℚ) ≠ 0),
    zpow_add₀ (by norm_num : (2 : ℚ) ≠ 0)]
  push_cast at b1 b2
  constructor
  · calc (2 : ℚ) ^ ulpExp x * 2 ^ (52 : ℤ) = 2 ^ (52 : ℕ) * 2 ^ ulpExp x := by
          rw [mul_comm]; norm_cast
      _ ≤ _ := mul_le_mul_of_nonneg_right b1 (le_of_lt hp)
  · calc _ ≤ (2 : ℚ) ^ (53 : ℕ) * 2 ^ ulpExp x := mul_le_mul_of_nonneg_right b2 (le_of_lt hp)
      _ = (2 : ℚ) ^ ulpExp x * 2 ^ (53 : ℤ) := by rw [mul_comm]; norm_cast

theorem round_pos {x : ℚ} (hx : 0 < x) : 0 < round x :=
  lt_of_lt_of_le (two_zpow_pos _) (round_pos_bounds hx).1

/-- Rounding is monotone on the positive numbers. -/
theorem round_mono_pos {x y : ℚ} (hx : 0 < x) (h : x ≤ y) : round x ≤ round y := by
  have hy : 0 < y := lt_of_lt_of_le hx h
  rcases lt_or_eq_of_le (ulpExp_mono hx h) with hk | hk
  · calc round x ≤ (2 : ℚ) ^ (ulpExp x + 53) := (round_pos_bounds hx).2
      _ ≤ (2 : ℚ) ^ (ulpExp y + 52) := zpow_le_zpow_right₀ (by norm_num) (by omega)
      _ ≤ round y := (round_pos_bounds hy).1
  · rw [round_of_ne_zero (ne_of_gt hx), round_of_ne_zero (ne_of_gt hy), hk]
    apply mul_le_mul_of_nonneg_right _ (le_of_lt (two_zpow_pos _))
    have : x / (2 : ℚ) ^ ulpExp y ≤ y / (2 : ℚ) ^ ulpExp y :=
      div_le_div_of_nonneg_right h (le_of_lt (two_zpow_pos _))
    exact_mod_cast rne_mono this

/-- Every `n * 2^j` with `|n| < 2^53` is a `float64` and rounds to itself. -/
theorem round_repr (n j : Int) (hn : |n| < 2 ^ 53) :
    round ((n : ℚ) * (2 : ℚ) ^ j) = (n : ℚ) * (2 : ℚ) ^ j := by
  rcases eq_or_ne n 0 with h0 | h0
  · simp [h0, round_zero]
  have hx : (n : ℚ) * (2 : ℚ) ^ j ≠ 0 :=
    mul_ne_zero (by exact_mod_cast h0) (ne_of_gt (two_zpow_pos j))
  obtain ⟨h1, -⟩ := ulpExp_spec hx
  set k := ulpExp ((n : ℚ) * (2 : ℚ) ^ j) with hkdef
  have hkj : k ≤ j := by
    by_contra hc
    push_neg at hc
    have hlt : |(n : ℚ) * (2 : ℚ) ^ j| < (2 : ℚ) ^ (k + 52) := by
      rw [abs_mul, abs_of_pos (two_zpow_pos j)]
      have hn' : |(n : ℚ)| < (2 : ℚ) ^ (53 : ℤ) := by
        have : ((|n| : Int) : ℚ) < ((2 ^ 53 : Int) : ℚ) := by exact_mod_cast hn
        push_cast at this; exact_mod_cast this
      calc |(n : ℚ)| * (2 : ℚ) ^ j < (2 : ℚ) ^ (53 : ℤ) * (2 : ℚ) ^ j :=
            mul_lt_mul_of_pos_right hn' (two_zpow_pos j)
        _ = (2 : ℚ) ^ (j + 53) := by rw [zpow_add₀ (by norm_num : (2 : ℚ) ≠ 0)]; ring
        _ ≤ (2 : ℚ) ^ (k + 52) := zpow_le_zpow_right₀ (by norm_num) (by omega)
    exact absurd h1 (not_le.mpr hlt)
  obtain ⟨d, hd⟩ := Int.le.dest hkj
  have hq : (n : ℚ) * (2 : ℚ) ^ j / (2 : ℚ) ^ k = ((n * 2 ^ d : Int) : ℚ) := by
    rw [← hd, zpow_add₀ (by norm_num : (2 : ℚ) ≠ 0), zpow_natCast]
    push_cast
    field_simp
    ring
  rw [round_of_ne_zero hx, ← hkdef, hq, rne_intCast, ← hq]
  field_simp

theorem round_intCast (n : Int) (hn : |n| ≤ 2 ^ 53) : round (n : ℚ) = n := by
  rcases lt_or_eq_of_le hn with h | h
  · simpa using round_repr n 0 h
  · rcases abs_eq (by norm_num : (0 : Int) ≤ 2 ^ 53) |>.mp h with h | h
    · have := round_repr 1 53 (by norm_num)
      rw [h]; push_cast; norm_num at this ⊢; exact this
    · have := round_repr (-1) 53 (by norm_num)
      rw [h]; push_cast; norm_num at this ⊢; exact this

theorem rne_neg (q : ℚ) : rne (-q) = -rne q := by
  rcases eq_or_ne q (⌊q⌋ : ℚ) with hq | hq
  · rw [hq, ← Int.cast_neg, rne_intCast, rne_intCast]
  · have h1 := Int.floor_le q
    have h2 := Int.lt_floor_add_one q
    have h3 : (⌊q⌋ : ℚ) < q := lt_of_le_of_ne h1 (Ne.symm hq)
    have hf : ⌊-q⌋ = -⌊q⌋ - 1 := by
      rw [Int.floor_eq_iff]; push_cast; constructor <;> linarith
    unfold rne
    rw [hf]
    push_cast
    split_ifs <;> first | omega | (exfalso; linarith)

theorem round_neg (x : ℚ) : round (-x) = -round x := by
  rcases eq_or_ne x 0 with h | h
  · simp [h, round_zero]
  · have hk : ulpExp (-x) = ulpExp x := by unfold ulpExp; rw [abs_neg]
    rw [round_of_ne_zero h, round_of_ne_zero (neg_ne_zero.mpr h), hk, neg_div, rne_neg]
    push_cast; ring

theorem round_nonneg {x : ℚ} (hx : 0 ≤ x) : 0 ≤ round x := by
  rcases eq_or_lt_of_le hx with h | h
  · rw [← h, round_zero]
  · exact le_of_lt (round_pos h)

theorem round_nonpos {x : ℚ} (hx : x ≤ 0) : round x ≤ 0 := by
  have := round_nonneg (neg_nonneg.mpr hx)
  rw [round_neg] at this
  linarith

/-- Rounding to `float64` is monotone. -/
theorem round_mono {x y : ℚ} (h : x ≤ y) : round x ≤ round y := by
  rcases lt_trichotomy 0 x with hx | hx | hx
  · exact round_mono_pos hx h
  · rw [← hx, round_zero]; exact round_nonneg (hx ▸ h)
  · rcases lt_or_le y 0 with hy | hy
    · have := round_mono_pos (neg_pos.mpr hy) (neg_le_neg h)
      rw [round_neg, round_neg] at this
      linarith
    · exact le_trans (round_nonpos (le_of_lt hx)) (round_nonneg hy)

theorem intCast_le_round {n : Int} {x : ℚ} (hn : |n| ≤ 2 ^ 53) (h : (n : ℚ) ≤ x) :
    (n : ℚ) ≤ round x := by
  have := round_mono h
  rwa [round_intCast n hn] at this

theorem round_le_intCast {n : Int} {x : ℚ} (hn : |n| ≤ 2 ^ 53) (h : x ≤ (n : ℚ)) :
    round x ≤ (n : ℚ) := by
  have := round_mono h
  rwa [round_intCast n hn] at this

theorem trunc_intCast (n : Int) : trunc (n : ℚ) = n := by
  unfold trunc; split_ifs <;> simp

theorem trunc_mono {x y : ℚ} (h : x ≤ y) : trunc x ≤ trunc y := by
  unfold trunc
  split_ifs with h1 h2 h2
  · exact Int.floor_mono h
  · exfalso; linarith
  · push_neg at h1
    have a : ⌈x⌉ ≤ 0 := Int.ceil_le.mpr (by exact_mod_cast le_of_lt h1)
    have b : 0 ≤ ⌊y⌋ := Int.floor_nonneg.mpr h2
    omega
  · exact Int.ceil_mono h

theorem intCast_le_trunc {n : Int} {x : ℚ} (h : (n : ℚ) ≤ x) : n ≤ trunc x := by
  have := trunc_mono h
  rwa [trunc_intCast] at this

theorem trunc_le_intCast {n : Int} {x : ℚ} (h : x ≤ (n : ℚ)) : trunc x ≤ n := by
  have := trunc_mono h
  rwa [trunc_intCast] at this

theorem toInt64_of_bounds (oob : ℚ → Int) {x : ℚ} (h1 : ((minInt64 : Int) : ℚ) ≤ x)
    (h2 : x ≤ ((maxInt64 : Int) : ℚ)) : toInt64 oob x = trunc x := by
  unfold toInt64
  rw [if_pos ⟨intCast_le_trunc h1, trunc_le_intCast h2⟩]

end F64

/-! ## Machine integers, the ease clamp, durations -/

theorem wrap64_of_range {x : Int} (h1 : minInt64 ≤ x) (h2 : x ≤ maxInt64) : wrap64 x = x := by
  unfold wrap64 minInt64 maxInt64 at *
  omega

theorem wrap64_range (x : Int) : minInt64 ≤ wrap64 x ∧ wrap64 x ≤ maxInt64 := by
  unfold wrap64 minInt64 maxInt64
  omega

theorem clampEase_bounds (e : Int) : 130 ≤ clampEase e ∧ clampEase e ≤ 1300 := by
  unfold clampEase
  split_ifs <;> omega

theorem newEase_bounds (ease : Int) (answ : AnswerEase) :
    130 ≤ newEase ease answ ∧ newEase ease answ ≤ 1300 :=
  clampEase_bounds _

theorem schedule_ease (oob : ℚ → Int) (againDelay now t ease ivl last_update : Int)
    (answ : AnswerEase) :
    (schedule oob againDelay now t ease ivl last_update answ).ease = newEase ease answ := by
  unfold schedule
  split_ifs <;> rfl

/-- Whole seconds convert exactly. -/
theorem Duration.Seconds_whole (s : Int) (hs : |s| ≤ 2 ^ 53) :
    Duration.Seconds (s * Second) = s := by
  have h1 : (s * Second).tdiv Second = s := Int.mul_tdiv_cancel _ (by decide)
  have h2 : (s * Second).tmod Second = 0 := Int.mul_tmod_left _ _
  unfold Duration.Seconds F64.add F64.div F64.ofInt
  rw [h1, h2]
  simp [F64.round_zero, F64.round_intCast s hs]

theorem againDelay_seconds (oob : ℚ → Int) :
    F64.toInt64 oob (Duration.Seconds (20 * Second)) = 20 := by
  rw [Duration.Seconds_whole 20 (by norm_num)]
  rw [F64.toInt64_of_bounds] <;> norm_num [F64.trunc_intCast, minInt64, maxInt64]
  exact_mod_cast F64.trunc_intCast 20

theorem toInt64_intCast (oob : ℚ → Int) (n : Int) (h1 : minInt64 ≤ n) (h2 : n ≤ maxInt64) :
    F64.toInt64 oob (n : ℚ) = n := by
  rw [F64.toInt64_of_bounds oob (by exact_mod_cast h1) (by exact_mod_cast h2),
    F64.trunc_intCast]

/-- The conversion `int64(time.Hour.Seconds()*24)` gives 86400. -/
theorem daySeconds (oob : ℚ → Int) :
    F64.toInt64 oob (F64.mul (Duration.Seconds Hour) 24) = 86400 := by
  have h : Duration.Seconds Hour = ((3600 : Int) : ℚ) := by
    unfold Hour
    exact Duration.Seconds_whole 3600 (by norm_num)
  have hm : F64.mul ((3600 : Int) : ℚ) 24 = ((86400 : Int) : ℚ) := by
    unfold F64.mul
    have := F64.round_intCast 86400 (by norm_num)
    norm_num at this ⊢
    exact this
  rw [h, hm, toInt64_intCast oob 86400 (by decide) (by decide)]

/-! ## The rows written by `Answer` -/

theorem Answer_eq (oob : ℚ → Int) (r : Repetition) (now t chatID : Int) (word : GoString)
    (answ : AnswerEase) (row : Row) (ease ivl : Int)
    (hrow : r.db.find? (isItem chatID word) = some row)
    (hease : row.ease = some ease) (hivl : row.ivl = some ivl) :
    Answer oob r now t chatID word answ =
      some { r with
        db := r.db.map (updateRow chatID word
          (schedule oob r.againDelay now t ease ivl row.last_updated_seconds answ)) } := by
  unfold Answer
  rw [hrow]
  simp only [hease, hivl]

theorem isItem_updateRow (chatID : Int) (word : GoString) (s : Sched) (row : Row) :
    isItem chatID word (updateRow chatID word s row) = isItem chatID word row := by
  unfold updateRow
  split_ifs with h
  · simp [isItem]
  · rfl

/-- Every row of the answered item holds the four scheduled values after the
`UPDATE`. -/
theorem updateRow_written (chatID : Int) (word : GoString) (s : Sched) (db : List Row)
    (row' : Row) (hmem : row' ∈ db.map (updateRow chatID word s))
    (hit : isItem chatID word row' = true) :
    row'.ease = some s.ease ∧ row'.ivl = some s.ivl ∧
      row'.last_updated_seconds = s.last_updated_seconds ∧
      row'.next_review_seconds = some s.next_review_seconds := by
  obtain ⟨row, -, rfl⟩ := List.mem_map.mp hmem
  rw [isItem_updateRow] at hit
  simp [updateRow, hit]

/-- C1: for every stored item (any ease, interval and last-review time) and
every answer quality, `Answer` succeeds and the ease it writes to the rows of
the answered item lies in the closed range `[130, 1300]`. -/
theorem answer_ease_in_range (oob : ℚ → Int) (r : Repetition) (now t chatID : Int)
    (word : GoString) (answ : AnswerEase) (row : Row) (ease ivl : Int)
    (hrow : r.db.find? (isItem chatID word) = some row)
    (hease : row.ease = some ease) (hivl : row.ivl = some ivl) :
    ∃ r', Answer oob r now t chatID word answ = some r' ∧
      ∀ row' ∈ r'.db, isItem chatID word row' = true →
        ∃ e, row'.ease = some e ∧ 130 ≤ e ∧ e ≤ 1300 := by
  refine ⟨_, Answer_eq oob r now t chatID word answ row ease ivl hrow hease hivl, ?_⟩
  intro row' hmem hit
  obtain ⟨h, -⟩ := updateRow_written chatID word _ r.db row' hmem hit
  refine ⟨_, h, ?_⟩
  rw [schedule_ease]
  exact newEase_bounds ease answ

/-- Witness of C1: an `Easy` answer on the sample store. -/
theorem answer_ease_in_range_witness :
    (sampleStore.db.find? (isItem 1 sampleRow.word) = some sampleRow ∧
      sampleRow.ease = some 1300 ∧ sampleRow.ivl = some 5) ∧
    ∃ r', Answer oobAmd64 sampleStore 0 0 1 sampleRow.word AnswerEasy = some r' ∧
      ∀ row' ∈ r'.db, isItem 1 sampleRow.word row' = true →
        ∃ e, row'.ease = some e ∧ 130 ≤ e ∧ e ≤ 1300 :=
  ⟨⟨by decide, rfl, rfl⟩,
    answer_ease_in_range oobAmd64 sampleStore 0 0 1 sampleRow.word AnswerEasy sampleRow 1300 5
      (by decide) rfl rfl⟩

/-! ## C2: an `Again` answer -/

theorem NewRepetition_againDelay (oob : ℚ → Int) (db : List Row) (stages : List Int)
    (r : Repetition) (h : NewRepetition oob db stages = some r) :
    r.againDelay = 20 * Second ∧ r.initialEase = 250 ∧ r.initialIvl = 0 := by
  unfold NewRepetition at h
  split_ifs at h
  simp only [Option.some.injEq] at h
  subst h
  exact ⟨rfl, rfl, rfl⟩

theorem schedule_again (oob : ℚ → Int) (now t ease ivl last_update : Int)
    (h1 : minInt64 ≤ t) (h2 : t + 20 ≤ maxInt64) :
    schedule oob (20 * Second) now t ease ivl last_update AnswerAgain =
      { ease := newEase ease AnswerAgain, ivl := 0, last_updated_seconds := t,
        next_review_seconds := t + 20 } := by
  unfold schedule
  simp only [if_true, againDelay_seconds]
  rw [wrap64_of_range (by omega) h2]

/-- C2: for every existing item, whatever its prior ease, interval and
last-review time, `Answer` with quality `Again` at clock reading `t` (with the
relearn delay of 20 seconds that `NewRepetition` configures) stores
interval 0, `last_updated_seconds = t` and `next_review_seconds = t + 20`. -/
theorem answer_again (oob : ℚ → Int) (r : Repetition) (now t chatID : Int)
    (word : GoString) (row : Row) (ease ivl : Int)
    (hdelay : r.againDelay = 20 * Second)
    (hrow : r.db.find? (isItem chatID word) = some row)
    (hease : row.ease = some ease) (hivl : row.ivl = some ivl)
    (h1 : minInt64 ≤ t) (h2 : t + 20 ≤ maxInt64) :
    ∃ r', Answer oob r now t chatID word AnswerAgain = some r' ∧
      ∀ row' ∈ r'.db, isItem chatID word row' = true →
        row'.ivl = some 0 ∧ row'.last_updated_seconds = t ∧
          row'.next_review_seconds = some (t + 20) := by
  refine ⟨_, Answer_eq oob r now t chatID word AnswerAgain row ease ivl hrow hease hivl, ?_⟩
  intro row' hmem hit
  obtain ⟨-, hi, hl, hn⟩ := updateRow_written chatID word _ r.db row' hmem hit
  rw [hdelay, schedule_again oob now t ease ivl _ h1 h2] at hi hl hn
  exact ⟨hi, hl, hn⟩

/-- Witness of C2: an `Again` answer on the sample store at `t = 1000`. -/
theorem answer_again_witness :
    (sampleStore.againDelay = 20 * Second ∧
      sampleStore.db.find? (isItem 1 sampleRow.word) = some sampleRow ∧
      sampleRow.ease = some 1300 ∧ sampleRow.ivl = some 5 ∧
      minInt64 ≤ 1000 ∧ (1000 : Int) + 20 ≤ maxInt64) ∧
    ∃ r', Answer oobAmd64 sampleStore 0 1000 1 sampleRow.word AnswerAgain = some r' ∧
      ∀ row' ∈ r'.db, isItem 1 sampleRow.word row' = true →
        row'.ivl = some 0 ∧ row'.last_updated_seconds = 1000 ∧
          row'.next_review_seconds = some (1000 + 20) :=
  ⟨⟨rfl, by decide, rfl, rfl, by decide, by decide⟩,
    answer_again oobAmd64 sampleStore 0 1000 1 sampleRow.word sampleRow 1300 5
      rfl (by decide) rfl rfl (by decide) (by decide)⟩

/-! ## The multiplier -/

theorem multiplier_le (ease : Int) (answ : AnswerEase) : multiplier ease answ ≤ 13 :=
  min_le_right _ _

theorem one_le_round {x : ℚ} (h : 1 ≤ x) : 1 ≤ F64.round x := by
  have := F64.intCast_le_round (n := 1) (x := x) (by norm_num) (by simpa using h)
  simpa using this

theorem one_le_easyBonus : 1 ≤ easyBonus := one_le_round (by norm_num)

theorem hundred_le_ofInt {e : Int} (h : 100 ≤ e) : (100 : ℚ) ≤ F64.ofInt e := by
  have h' : ((100 : Int) : ℚ) ≤ (e : ℚ) := by exact_mod_cast h
  have := F64.intCast_le_round (n := 100) (by norm_num) h'
  simpa [F64.ofInt] using this

/-- From ease 100 on, no answer shrinks the interval: the multiplier is at
least 1. -/
theorem one_le_multiplier (ease : Int) (answ : AnswerEase) (h1 : 100 ≤ ease)
    (h2 : ease + 15 ≤ maxInt64) : 1 ≤ multiplier ease answ := by
  unfold multiplier
  refine le_min ?_ (by norm_num)
  unfold answerSwitch
  split_ifs
  · exact le_refl _
  · exact one_le_round (by norm_num)
  · apply one_le_round
    rw [le_div_iff₀ (by norm_num)]
    simpa using hundred_le_ofInt h1
  · apply one_le_round
    rw [le_div_iff₀ (by norm_num), one_mul]
    have hw : wrap64 (ease + 15) = ease + 15 :=
      wrap64_of_range (by unfold minInt64; omega) h2
    rw [hw]
    have a : (100 : ℚ) ≤ F64.ofInt (ease + 15) := hundred_le_ofInt (by omega)
    have b : ((100 : Int) : ℚ) ≤ F64.ofInt (ease + 15) * easyBonus := by
      push_cast
      nlinarith [one_le_easyBonus]
    simpa [F64.mul] using F64.intCast_le_round (n := 100) (by norm_num) b
  · exact le_refl _

/-! ## The interval switch -/

theorem growIvl_zero (oob : ℚ → Int) (mult : ℚ) : growIvl oob 0 mult = 1 := by
  simp [growIvl]

theorem growIvl_one (oob : ℚ → Int) (mult : ℚ) : growIvl oob 1 mult = 3 := by
  simp [growIvl]

theorem ofInt_exact {i : Int} (h : |i| ≤ 2 ^ 53) : F64.ofInt i = i := F64.round_intCast i h

/-- The product `float64(ivl) * mult` stays between `ivl` and `13 * 2^53` when
`0 ≤ ivl ≤ 2^53` and `1 ≤ mult ≤ 13`. -/
theorem product_bounds {i : Int} {m : ℚ} (h0 : 0 ≤ i) (h53 : i ≤ 2 ^ 53) (hm1 : 1 ≤ m)
    (hm13 : m ≤ 13) :
    (i : ℚ) ≤ F64.mul (F64.ofInt i) m ∧ F64.mul (F64.ofInt i) m ≤ 13 * 2 ^ 53 := by
  have habs : |i| ≤ 2 ^ 53 := by rw [abs_of_nonneg h0]; exact h53
  have hi0 : (0 : ℚ) ≤ i := by exact_mod_cast h0
  have hi53 : (i : ℚ) ≤ 2 ^ 53 := by exact_mod_cast h53
  rw [ofInt_exact habs]
  unfold F64.mul
  constructor
  · exact F64.intCast_le_round habs (by nlinarith)
  · have h13 : F64.round ((13 : Int) * (2 : ℚ) ^ (53 : Int)) = (13 : Int) * (2 : ℚ) ^ (53 : Int) :=
      F64.round_repr 13 53 (by norm_num)
    have hle : (i : ℚ) * m ≤ (13 : Int) * (2 : ℚ) ^ (53 : Int) := by
      have : (i : ℚ) * m ≤ 2 ^ 53 * 13 := mul_le_mul hi53 hm13 (by linarith) (by norm_num)
      norm_num at this ⊢
      linarith
    have := F64.round_mono hle
    rw [h13] at this
    norm_num at this ⊢
    exact this

/-- The interval switch on an effective interval in `[2, 2^53]` with a
multiplier in `[1, 13]`: the truncated product, or one day more than the
interval when the product truncates to the interval itself. -/
theorem growIvl_eq_max (oob : ℚ → Int) {i : Int} {m : ℚ} (h2 : 2 ≤ i) (h53 : i ≤ 2 ^ 53)
    (hm1 : 1 ≤ m) (hm13 : m ≤ 13) :
    growIvl oob i m = max (F64.trunc (F64.mul (F64.ofInt i) m)) (i + 1) := by
  obtain ⟨hlo, hhi⟩ := product_bounds (by omega : 0 ≤ i) h53 hm1 hm13
  have hconv : F64.toInt64 oob (F64.mul (F64.ofInt i) m) = F64.trunc (F64.mul (F64.ofInt i) m) := by
    apply F64.toInt64_of_bounds
    · have : ((minInt64 : Int) : ℚ) ≤ (i : ℚ) := by
        have : minInt64 ≤ i := by unfold minInt64; omega
        exact_mod_cast this
      linarith
    · have : (13 * 2 ^ 53 : ℚ) ≤ ((maxInt64 : Int) : ℚ) := by
        unfold maxInt64; push_cast; norm_num
      linarith
  have hge : i ≤ F64.trunc (F64.mul (F64.ofInt i) m) := F64.intCast_le_trunc hlo
  have hw : wrap64 (i + 1) = i + 1 :=
    wrap64_of_range (by unfold minInt64; omega) (by unfold maxInt64; omega)
  unfold growIvl
  rw [if_neg (by omega), if_neg (by omega), hconv, hw]
  split_ifs with h
  · rw [h]; omega
  · omega

theorem schedule_ivl (oob : ℚ → Int) (againDelay now t ease ivl last_update : Int)
    (answ : AnswerEase) (hq : answ ≠ AnswerAgain) :
    (schedule oob againDelay now t ease ivl last_update answ).ivl =
      growIvl oob (effectiveIvl ivl (elapsedDays oob now last_update))
        (multiplier ease answ) := by
  unfold schedule
  simp only [if_neg hq]

theorem le_effectiveIvl (ivl d : Int) : ivl ≤ effectiveIvl ivl d ∧ d ≤ effectiveIvl ivl d := by
  unfold effectiveIvl
  split_ifs <;> omega

theorem effectiveIvl_of_le {ivl d : Int} (h : d ≤ ivl) : effectiveIvl ivl d = ivl := by
  unfold effectiveIvl
  rw [if_neg (by omega)]

/-! ## Elapsed days -/

theorem tdiv_tmod_cases (a : Int) {b : Int} (hb : 0 < b) :
    (0 ≤ a ∧ a.tdiv b = a / b ∧ a.tmod b = a % b) ∨
      (a < 0 ∧ a.tdiv b = -((-a) / b) ∧ a.tmod b = -((-a) % b)) := by
  rcases le_or_lt 0 a with h | h
  · exact Or.inl ⟨h, Int.tdiv_eq_ediv h (le_of_lt hb), Int.tmod_eq_emod h (le_of_lt hb)⟩
  · right
    have hd : a.tdiv b = -((-a) / b) := by
      have := Int.neg_tdiv (-a) b
      rw [neg_neg] at this
      rw [this, Int.tdiv_eq_ediv (by omega) (le_of_lt hb)]
    refine ⟨h, hd, ?_⟩
    have h1 := Int.tdiv_add_tmod a b
    have h2 := Int.emod_add_ediv (-a) b
    rw [hd] at h1
    have : b * -(-a / b) = -(b * (-a / b)) := by ring
    rw [this] at h1
    omega

/-- The hour count and the remainder of a `Duration`. -/
theorem hours_parts_bounds (d : Int) (h1 : minInt64 ≤ d) (h2 : d ≤ maxInt64) :
    -2562047 ≤ d.tdiv Hour ∧ d.tdiv Hour ≤ 2562047 ∧
      -3600000000000 < d.tmod Hour ∧ d.tmod Hour < 3600000000000 := by
  have hH : Hour = 3600000000000 := by decide
  rw [hH]
  unfold minInt64 maxInt64 at *
  rcases tdiv_tmod_cases d (b := 3600000000000) (by norm_num) with ⟨h, hd, hm⟩ | ⟨h, hd, hm⟩ <;>
    rw [hd, hm] <;> omega

theorem timeSub_range (t u : Int) : minInt64 ≤ timeSub t u ∧ timeSub t u ≤ maxInt64 := by
  unfold timeSub minInt64 maxInt64
  omega

/-- The value of `Duration.Hours` never leaves `[-2562048, 2562048]`. -/
theorem hours_bounds (d : Int) (h1 : minInt64 ≤ d) (h2 : d ≤ maxInt64) :
    -2562048 ≤ Duration.Hours d ∧ Duration.Hours d ≤ 2562048 := by
  obtain ⟨a1, a2, a3, a4⟩ := hours_parts_bounds d h1 h2
  have e1 : F64.ofInt (d.tdiv Hour) = d.tdiv Hour :=
    ofInt_exact (by rw [abs_le]; constructor <;> omega)
  have e2 : F64.ofInt (d.tmod Hour) = d.tmod Hour :=
    ofInt_exact (by rw [abs_le]; constructor <;> omega)
  have q1 : ((-2562047 : Int) : ℚ) ≤ (d.tdiv Hour : ℚ) := by exact_mod_cast a1
  have q2 : (d.tdiv Hour : ℚ) ≤ ((2562047 : Int) : ℚ) := by exact_mod_cast a2
  have q3 : ((-3600000000000 : Int) : ℚ) ≤ (d.tmod Hour : ℚ) := by exact_mod_cast le_of_lt a3
  have q4 : (d.tmod Hour : ℚ) ≤ ((3600000000000 : Int) : ℚ) := by exact_mod_cast le_of_lt a4
  push_cast at q1 q2 q3 q4
  have f1 : ((-1 : Int) : ℚ) ≤ F64.div (d.tmod Hour) 3600000000000 := by
    apply F64.intCast_le_round (by norm_num)
    rw [le_div_iff₀ (by norm_num)]; push_cast; linarith
  have f2 : F64.div (d.tmod Hour) 3600000000000 ≤ ((1 : Int) : ℚ) := by
    apply F64.round_le_intCast (by norm_num)
    rw [div_le_iff₀ (by norm_num)]; push_cast; linarith
  push_cast at f1 f2
  unfold Duration.Hours
  rw [e1, e2]
  constructor
  · have := F64.intCast_le_round (n := -2562048)
      (x := (d.tdiv Hour : ℚ) + F64.div (d.tmod Hour) 3600000000000) (by norm_num)
      (by push_cast; linarith)
    simpa [F64.add] using this
  · have := F64.round_le_intCast (n := 2562048)
      (x := (d.tdiv Hour : ℚ) + F64.div (d.tmod Hour) 3600000000000) (by norm_num)
      (by push_cast; linarith)
    simpa [F64.add] using this

/-- The elapsed whole days are the truncated day count and never leave
`[-106752, 106752]`, whatever the clock and the stored time. -/
theorem elapsedDays_bounds (oob : ℚ → Int) (now last_update : Int) :
    -106752 ≤ elapsedDays oob now last_update ∧ elapsedDays oob now last_update ≤ 106752 := by
  obtain ⟨r1, r2⟩ := timeSub_range now (last_update * Second)
  obtain ⟨b1, b2⟩ := hours_bounds _ r1 r2
  have c1 : ((-106752 : Int) : ℚ) ≤
      F64.div (Duration.Hours (timeSub now (last_update * Second))) 24 := by
    apply F64.intCast_le_round (by norm_num)
    rw [le_div_iff₀ (by norm_num)]; push_cast; linarith
  have c2 : F64.div (Duration.Hours (timeSub now (last_update * Second))) 24 ≤
      ((106752 : Int) : ℚ) := by
    apply F64.round_le_intCast (by norm_num)
    rw [div_le_iff₀ (by norm_num)]; push_cast; linarith
  unfold elapsedDays
  rw [F64.toInt64_of_bounds]
  · exact ⟨F64.intCast_le_trunc c1, F64.trunc_le_intCast c2⟩
  · refine le_trans ?_ c1
    unfold minInt64; push_cast; norm_num
  · refine le_trans c2 ?_
    unfold maxInt64; push_cast; norm_num

/-- A review exactly `k` days after the last one has `k` elapsed days. -/
theorem elapsedDays_whole (oob : ℚ → Int) (last_update k : Int) (hk : |k| ≤ 106751) :
    elapsedDays oob ((last_update + 86400 * k) * Second) last_update = k := by
  rw [abs_le] at hk
  have hsub : timeSub ((last_update + 86400 * k) * Second) (last_update * Second) =
      (24 * k) * Hour := by
    have hS : Second = 1000000000 := by decide
    have hH : Hour = 3600000000000 := by decide
    unfold timeSub minInt64 maxInt64
    rw [hS, hH]
    omega
  have h1 : ((24 * k) * Hour).tdiv Hour = 24 * k := Int.mul_tdiv_cancel _ (by decide)
  have h2 : ((24 * k) * Hour).tmod Hour = 0 := Int.mul_tmod_left _ _
  have e1 : F64.round ((24 * k : Int) : ℚ) = ((24 * k : Int) : ℚ) :=
    F64.round_intCast _ (by rw [abs_le]; constructor <;> omega)
  have e2 : F64.round (k : ℚ) = k :=
    F64.round_intCast _ (by rw [abs_le]; constructor <;> omega)
  unfold elapsedDays Duration.Hours F64.add F64.div F64.ofInt
  rw [hsub, h1, h2]
  simp only [Int.cast_zero, F64.round_zero, zero_div, add_zero, e1]
  have e3 : ((24 * k : Int) : ℚ) / 24 = k := by push_cast; ring
  rw [e3, e2, F64.toInt64_of_bounds, F64.trunc_intCast]
  · have : minInt64 ≤ k := by unfold minInt64; omega
    exact_mod_cast this
  · have : k ≤ maxInt64 := by unfold maxInt64; omega
    exact_mod_cast this

theorem trunc_lt_of_lt {x : ℚ} {n : Int} (hn : 0 < n) (h : x < (n : ℚ)) : F64.trunc x < n := by
  unfold F64.trunc
  split_ifs with h0
  · exact Int.floor_lt.mpr h
  · push_neg at h0
    have : ⌈x⌉ ≤ 0 := Int.ceil_le.mpr (by exact_mod_cast le_of_lt h0)
    omega

/-- A `float64` just below the integer `n`: `n - 2^(-j)`. -/
theorem round_below_int (n : Int) (j : Nat) (h0 : 0 < n) (hn : n * 2 ^ j < 2 ^ 53) :
    F64.round ((n : ℚ) - 1 / 2 ^ j) = (n : ℚ) - 1 / 2 ^ j := by
  have hpos : (0 : Int) < n * 2 ^ j := mul_pos h0 (by positivity)
  have := F64.round_repr (n * 2 ^ j - 1) (-(j : Int)) (by rw [abs_lt]; constructor <;> omega)
  have e : ((n * 2 ^ j - 1 : Int) : ℚ) * (2 : ℚ) ^ (-(j : Int)) = (n : ℚ) - 1 / 2 ^ j := by
    rw [zpow_neg, zpow_natCast]
    push_cast
    field_simp
  rw [e] at this
  exact this

/-- A review less than `k + 1` days after the last one has at most `k`
elapsed days (`0 ≤ k ≤ 60`; the clock may also be behind the stored time). -/
theorem elapsedDays_le_of_lt (oob : ℚ → Int) (now last_update k : Int) (hk0 : 0 ≤ k)
    (hk : k ≤ 60) (h : now - last_update * Second < (k + 1) * (24 * Hour)) :
    elapsedDays oob now last_update ≤ k := by
  have hH : Hour = 3600000000000 := by decide
  obtain ⟨r1, r2⟩ := timeSub_range now (last_update * Second)
  have hD : timeSub now (last_update * Second) < (k + 1) * (24 * Hour) := by
    unfold timeSub minInt64 maxInt64
    rw [hH] at h ⊢
    omega
  unfold elapsedDays
  generalize timeSub now (last_update * Second) = d at r1 r2 hD ⊢
  obtain ⟨a1, a2, a3, a4⟩ := hours_parts_bounds d r1 r2
  have hh : d.tdiv Hour ≤ 24 * (k + 1) - 1 := by
    rw [hH] at hD ⊢
    rcases tdiv_tmod_cases d (b := 3600000000000) (by norm_num) with ⟨_, hd, _⟩ | ⟨_, hd, _⟩ <;>
      rw [hd] <;> omega
  have e1 : F64.ofInt (d.tdiv Hour) = d.tdiv Hour :=
    ofInt_exact (by rw [abs_le]; constructor <;> omega)
  have e2 : F64.ofInt (d.tmod Hour) = d.tmod Hour :=
    ofInt_exact (by rw [abs_le]; constructor <;> omega)
  have qh : (d.tdiv Hour : ℚ) ≤ 24 * ((k : ℚ) + 1) - 1 := by exact_mod_cast hh
  have qr : (d.tmod Hour : ℚ) ≤ 3600000000000 - 1 := by
    have : d.tmod Hour ≤ 3600000000000 - 1 := by omega
    exact_mod_cast this
  have qk0 : (0 : ℚ) ≤ k := by exact_mod_cast hk0
  have qk : (k : ℚ) ≤ 60 := by exact_mod_cast hk
  -- the fraction of an hour stays below 1
  have f : F64.div (d.tmod Hour) 3600000000000 ≤ ((1 : Int) : ℚ) - 1 / 2 ^ 42 := by
    rw [← round_below_int 1 42 (by norm_num) (by norm_num)]
    apply F64.round_mono
    rw [div_le_iff₀ (by norm_num)]
    norm_num
    linarith
  -- the hours stay below 24 (k + 1)
  have s : Duration.Hours d ≤ ((24 * (k + 1) : Int) : ℚ) - 1 / 2 ^ 42 := by
    rw [← round_below_int (24 * (k + 1)) 42 (by omega) (by omega)]
    unfold Duration.Hours
    rw [e1, e2]
    apply F64.round_mono
    push_cast at f ⊢
    linarith
  -- the days stay below k + 1
  have q : F64.div (Duration.Hours d) 24 ≤ ((k + 1 : Int) : ℚ) - 1 / 2 ^ 47 := by
    rw [← round_below_int (k + 1) 47 (by omega) (by omega)]
    apply F64.round_mono
    rw [div_le_iff₀ (by norm_num)]
    push_cast at s ⊢
    norm_num at s ⊢
    linarith
  have c2 : F64.div (Duration.Hours d) 24 < ((k + 1 : Int) : ℚ) := by
    have : (0 : ℚ) < 1 / 2 ^ 47 := by norm_num
    linarith
  obtain ⟨b1, b2⟩ := hours_bounds d r1 r2
  have c1 : ((-106752 : Int) : ℚ) ≤ F64.div (Duration.Hours d) 24 := by
    apply F64.intCast_le_round (by norm_num)
    rw [le_div_iff₀ (by norm_num)]; push_cast; linarith
  rw [F64.toInt64_of_bounds]
  · have := trunc_lt_of_lt (by omega : (0 : Int) < k + 1) c2
    omega
  · refine le_trans ?_ c1
    unfold minInt64; push_cast; norm_num
  · refine le_trans (le_of_lt c2) ?_
    have : k + 1 ≤ maxInt64 := by unfold maxInt64; omega
    exact_mod_cast this

/-! ## Evaluating `F64.round` at a given number -/

/-- How to compute `F64.round x`: give the exponent `k` of the binade and the
integer `m` nearest to the scaled value. -/
theorem F64.round_eq_of_scaled {x : ℚ} (k m : Int) (h1 : (2 : ℚ) ^ (k + 52) ≤ |x|)
    (h2 : |x| < (2 : ℚ) ^ (k + 53)) (h3 : |x / (2 : ℚ) ^ k - m| < 1 / 2) :
    F64.round x = (m : ℚ) * (2 : ℚ) ^ k := by
  have hx : x ≠ 0 := by
    intro h
    rw [h, abs_zero] at h1
    exact absurd h1 (not_le.mpr (F64.two_zpow_pos _))
  rw [F64.round_of_ne_zero hx, F64.ulpExp_unique h1 h2, F64.rne_eq_of_abs_sub_lt h3]

/-- The `float64` nearest to 1.2. -/
theorem round_six_fifths : F64.round (6 / 5) = 5404319552844595 / 4503599627370496 := by
  rw [F64.round_eq_of_scaled (-52) 5404319552844595] <;> norm_num [abs_lt, abs_of_pos]

/-- The conversion `float64(math.MaxInt64)` gives `2^63`. -/
theorem ofInt_maxInt64 : F64.ofInt maxInt64 = 9223372036854775808 := by
  unfold F64.ofInt maxInt64
  rw [F64.round_eq_of_scaled 10 9007199254740992] <;> norm_num [abs_lt, abs_of_pos]

theorem multiplier_hard (ease : Int) :
    multiplier ease AnswerHard = 5404319552844595 / 4503599627370496 := by
  unfold multiplier answerSwitch
  rw [if_neg (by decide), if_pos rfl, round_six_fifths]
  norm_num

theorem elapsedDays_zero (oob : ℚ → Int) (last_update : Int) :
    elapsedDays oob (last_update * Second) last_update = 0 := by
  simpa using elapsedDays_whole oob last_update 0 (by norm_num)

/-! ## C3: the first two intervals -/

theorem trunc_eq_of_bounds {x : ℚ} {n : Int} (h0 : 0 ≤ x) (h1 : (n : ℚ) ≤ x)
    (h2 : x < (n : ℚ) + 1) : F64.trunc x = n := by
  unfold F64.trunc
  rw [if_pos h0, Int.floor_eq_iff]
  exact ⟨h1, h2⟩

theorem effectiveIvl_at_zero (oob : ℚ → Int) (ivl : Int) (h : 0 ≤ ivl) :
    effectiveIvl ivl (elapsedDays oob 0 0) = ivl := by
  have h0 : elapsedDays oob 0 0 = 0 := by simpa using elapsedDays_zero oob 0
  rw [h0]
  exact effectiveIvl_of_le h

/-- Answer `Hard` on effective interval 8: the product `8 * 1.2` is the `float64`
just below 9.6 and truncates to 9. -/
theorem growIvl_hard_eight (oob : ℚ → Int) :
    growIvl oob 8 (multiplier 250 AnswerHard) = 9 := by
  have hp : F64.mul (F64.ofInt 8) (5404319552844595 / 4503599627370496) =
      5404319552844595 / 562949953421312 := by
    rw [ofInt_exact (by norm_num)]
    unfold F64.mul
    have := F64.round_repr 5404319552844595 (-49) (by norm_num)
    norm_num at this ⊢
    exact this
  have ht : F64.trunc (5404319552844595 / 562949953421312) = 9 :=
    trunc_eq_of_bounds (by norm_num) (by norm_num) (by norm_num)
  unfold growIvl
  rw [multiplier_hard, hp, F64.toInt64_of_bounds oob (by unfold minInt64; norm_num)
    (by unfold maxInt64; norm_num), ht]
  decide

/-- Answer `Good` at ease 50 on effective interval 10: the multiplier is 0.5 and the
interval drops to 5. -/
theorem growIvl_good_fifty (oob : ℚ → Int) :
    multiplier 50 AnswerGood = 1 / 2 ∧ growIvl oob 10 (multiplier 50 AnswerGood) = 5 := by
  have hm : multiplier 50 AnswerGood = 1 / 2 := by
    unfold multiplier answerSwitch
    rw [if_neg (by decide), if_neg (by decide), if_pos rfl, ofInt_exact (by norm_num)]
    unfold F64.div
    have := F64.round_repr 1 (-1) (by norm_num)
    norm_num at this ⊢
    rw [this]
    norm_num
  refine ⟨hm, ?_⟩
  have hp : F64.mul (F64.ofInt 10) (1 / 2) = ((5 : Int) : ℚ) := by
    rw [ofInt_exact (by norm_num)]
    unfold F64.mul
    have := F64.round_intCast 5 (by norm_num)
    norm_num at this ⊢
    exact this
  unfold growIvl
  rw [hm, hp, F64.toInt64_of_bounds oob (by unfold minInt64; norm_num)
    (by unfold maxInt64; norm_num), F64.trunc_intCast]
  decide

/-- On an effective interval of `math.MaxInt64` days the product
`float64(ivl) * 1.2` does not fit `int64`, and whatever value the platform
gives for the conversion, the interval that is stored is below the old one. -/
theorem growIvl_hard_maxInt64 (oob : ℚ → Int) :
    growIvl oob maxInt64 (multiplier 250 AnswerHard) < maxInt64 ∧
      growIvl oobAmd64 maxInt64 (multiplier 250 AnswerHard) = minInt64 := by
  have hp : F64.mul (F64.ofInt maxInt64) (5404319552844595 / 4503599627370496) =
      ((11068046444225730560 : Int) : ℚ) := by
    rw [ofInt_maxInt64]
    unfold F64.mul
    have := F64.round_repr 5404319552844595 11 (by norm_num)
    norm_num at this ⊢
    exact this
  have hconv : ∀ f : ℚ → Int, F64.toInt64 f ((11068046444225730560 : Int) : ℚ) =
      wrap64 (f ((11068046444225730560 : Int) : ℚ)) := by
    intro f
    unfold F64.toInt64
    rw [F64.trunc_intCast, if_neg (by unfold maxInt64; omega)]
  have h0 : maxInt64 ≠ 0 := by decide
  have h1 : maxInt64 ≠ 1 := by decide
  constructor
  · unfold growIvl
    rw [if_neg h0, if_neg h1, multiplier_hard, hp, hconv]
    have hr := wrap64_range (oob ((11068046444225730560 : Int) : ℚ))
    split_ifs with h
    · decide
    · omega
  · unfold growIvl
    rw [if_neg h0, if_neg h1, multiplier_hard, hp, hconv]
    decide

/-- C4, counterexample: the stored interval is not `max(round(i*m), i+1)`.
`Hard` (multiplier 1.2) on effective interval 8 stores 9, where the formula
gives `round(9.6) = 10`; `Good` at ease 50 (multiplier 0.5) on effective
interval 10 stores 5, where the formula gives 11; `Hard` on effective interval
`math.MaxInt64` stores `math.MinInt64` on amd64. -/
theorem answer_interval_not_rounded :
    (effectiveIvl 8 (elapsedDays oobAmd64 0 0) = 8 ∧
      (schedule oobAmd64 (20 * Second) 0 0 250 8 0 AnswerHard).ivl = 9 ∧
      specNewIvl 8 (6 / 5) = 10 ∧ specNewIvl 8 (multiplier 250 AnswerHard) = 10) ∧
    (effectiveIvl 10 (elapsedDays oobAmd64 0 0) = 10 ∧
      (schedule oobAmd64 (20 * Second) 0 0 50 10 0 AnswerGood).ivl = 5 ∧
      specNewIvl 10 (multiplier 50 AnswerGood) = 11) ∧
    (effectiveIvl maxInt64 (elapsedDays oobAmd64 0 0) = maxInt64 ∧
      (schedule oobAmd64 (20 * Second) 0 0 250 maxInt64 0 AnswerHard).ivl = minInt64) := by
  have e8 := effectiveIvl_at_zero oobAmd64 8 (by decide)
  have e10 := effectiveIvl_at_zero oobAmd64 10 (by decide)
  have eM := effectiveIvl_at_zero oobAmd64 maxInt64 (by decide)
  have s1 : specNewIvl 8 (6 / 5) = 10 := by
    have : specRound (((8 : Int) : ℚ) * (6 / 5)) = 10 := by
      unfold specRound; rw [Int.floor_eq_iff]; norm_num
    unfold specNewIvl; rw [this]; decide
  have s2 : specNewIvl 8 (multiplier 250 AnswerHard) = 10 := by
    have : specRound (((8 : Int) : ℚ) * (5404319552844595 / 4503599627370496)) = 10 := by
      unfold specRound; rw [Int.floor_eq_iff]; norm_num
    unfold specNewIvl; rw [multiplier_hard, this]; decide
  have s3 : specNewIvl 10 (multiplier 50 AnswerGood) = 11 := by
    have : specRound (((10 : Int) : ℚ) * (1 / 2)) = 5 := by
      unfold specRound; rw [Int.floor_eq_iff]; norm_num
    unfold specNewIvl; rw [(growIvl_good_fifty oobAmd64).1, this]; decide
  refine ⟨⟨e8, ?_, s1, s2⟩, ⟨e10, ?_, s3⟩, eM, ?_⟩
  · rw [schedule_ivl _ _ _ _ _ _ _ _ (by decide), e8]
    exact growIvl_hard_eight oobAmd64
  · rw [schedule_ivl _ _ _ _ _ _ _ _ (by decide), e10]
    exact (growIvl_good_fifty oobAmd64).2
  · rw [schedule_ivl _ _ _ _ _ _ _ _ (by decide), eM]
    exact (growIvl_hard_maxInt64 oobAmd64).2

theorem multiplier_good_250 : multiplier 250 AnswerGood = 5 / 2 := by
  unfold multiplier answerSwitch
  rw [if_neg (by decide), if_neg (by decide), if_pos rfl, ofInt_exact (by norm_num)]
  unfold F64.div
  have := F64.round_repr 5 (-1) (by norm_num)
  norm_num at this ⊢
  rw [this]
  norm_num

/-- C4, amended: for every answer other than `Again` whose multiplier `m`
(capped at 13) is at least 1, and every effective interval `2 ≤ i ≤ 2^53`,
the interval stored by `Answer` is `max(trunc(i*m), i+1)`, the `float64`
product with its fraction discarded; ease 250 with interval 10, reviewed
exactly 10 days later with `Good`, has multiplier 2.5 and new interval 25. -/
theorem answer_interval_truncated (oob : ℚ → Int) (againDelay now t ease ivl last_update : Int)
    (answ : AnswerEase) (hq : answ ≠ AnswerAgain)
    (hm : 1 ≤ multiplier ease answ)
    (h2 : 2 ≤ effectiveIvl ivl (elapsedDays oob now last_update))
    (h53 : effectiveIvl ivl (elapsedDays oob now last_update) ≤ 2 ^ 53) :
    (schedule oob againDelay now t ease ivl last_update answ).ivl =
        max (F64.trunc (F64.mul (effectiveIvl ivl (elapsedDays oob now last_update) : Int)
              (multiplier ease answ)))
          (effectiveIvl ivl (elapsedDays oob now last_update) + 1) ∧
      multiplier 250 AnswerGood = 5 / 2 ∧
      (schedule oob againDelay ((last_update + 86400 * 10) * Second) t 250 10 last_update
        AnswerGood).ivl = 25 := by
  refine ⟨?_, multiplier_good_250, ?_⟩
  · rw [schedule_ivl oob againDelay now t ease ivl last_update answ hq,
      growIvl_eq_max oob h2 h53 hm (multiplier_le ease answ),
      ofInt_exact (by rw [abs_le]; constructor <;> omega)]
  · have hd := elapsedDays_whole oob last_update 10 (by norm_num)
    have he : effectiveIvl 10 (elapsedDays oob ((last_update + 86400 * 10) * Second)
        last_update) = 10 := by rw [hd]; decide
    rw [schedule_ivl _ _ _ _ _ _ _ _ (by decide), he,
      growIvl_eq_max oob (by norm_num) (by norm_num) (by rw [multiplier_good_250]; norm_num)
        (multiplier_le 250 AnswerGood), multiplier_good_250, ofInt_exact (by norm_num)]
    have hp : F64.mul ((10 : Int) : ℚ) (5 / 2) = ((25 : Int) : ℚ) := by
      unfold F64.mul
      have := F64.round_intCast 25 (by norm_num)
      norm_num at this ⊢
      exact this
    rw [hp, F64.trunc_intCast]
    decide

/-- Witness of C4: `Hard` at ease 250 on a stored interval of 8, answered on
the day of the last review. -/
theorem answer_interval_truncated_witness :
    (AnswerHard ≠ AnswerAgain ∧ 1 ≤ multiplier 250 AnswerHard ∧
      2 ≤ effectiveIvl 8 (elapsedDays oobAmd64 0 0) ∧
      effectiveIvl 8 (elapsedDays oobAmd64 0 0) ≤ 2 ^ 53) ∧
    ((schedule oobAmd64 (20 * Second) 0 0 250 8 0 AnswerHard).ivl =
        max (F64.trunc (F64.mul (effectiveIvl 8 (elapsedDays oobAmd64 0 0) : Int)
              (multiplier 250 AnswerHard)))
          (effectiveIvl 8 (elapsedDays oobAmd64 0 0) + 1) ∧
      multiplier 250 AnswerGood = 5 / 2 ∧
      (schedule oobAmd64 (20 * Second) ((0 + 86400 * 10) * Second) 0 250 10 0
        AnswerGood).ivl = 25) :=
  have e8 : effectiveIvl 8 (elapsedDays oobAmd64 0 0) = 8 :=
    effectiveIvl_at_zero oobAmd64 8 (by decide)
  have hm : 1 ≤ multiplier 250 AnswerHard :=
    one_le_multiplier 250 AnswerHard (by decide) (by decide)
  ⟨⟨by decide, hm, by rw [e8]; decide, by rw [e8]; decide⟩,
    answer_interval_truncated oobAmd64 (20 * Second) 0 0 250 8 0 AnswerHard (by decide) hm
      (by rw [e8]; decide) (by rw [e8]; decide)⟩

/-! ## C3: answers outside the first days -/

/-- What `Answer` writes for an answer other than `Again`, with the
conversions of the constants carried out. -/
theorem schedule_not_again (oob : ℚ → Int) (againDelay now t ease ivl last_update : Int)
    (answ : AnswerEase) (hq : answ ≠ AnswerAgain) :
    schedule oob againDelay now t ease ivl last_update answ =
      { ease := newEase ease answ,
        ivl := growIvl oob (effectiveIvl ivl (elapsedDays oob now last_update))
          (multiplier ease answ),
        last_updated_seconds := t,
        next_review_seconds :=
          wrap64 (t + wrap64 (growIvl oob (effectiveIvl ivl (elapsedDays oob now last_update))
            (multiplier ease answ) * 86400)) } := by
  unfold schedule
  simp only [if_neg hq, daySeconds]

/-- The interval switch at multiplier 2.5 (`Good` at ease 250): the product
`2.5 * i` is exact and `v` is its integer part. -/
theorem growIvl_five_halves (oob : ℚ → Int) (i v : Int) (h2 : 2 ≤ i) (hi : i ≤ 2 ^ 50)
    (hv1 : 2 * v ≤ 5 * i) (hv2 : 5 * i < 2 * v + 2) : growIvl oob i (5 / 2) = v := by
  have hp : F64.mul ((i : Int) : ℚ) (5 / 2) = ((5 * i : Int) : ℚ) * (2 : ℚ) ^ (-1 : Int) := by
    unfold F64.mul
    have := F64.round_repr (5 * i) (-1) (by rw [abs_lt]; constructor <;> omega)
    have e : ((i : Int) : ℚ) * (5 / 2) = ((5 * i : Int) : ℚ) * (2 : ℚ) ^ (-1 : Int) := by
      push_cast; norm_num; ring
    rw [e, this]
  have q1 : ((2 * v : Int) : ℚ) ≤ ((5 * i : Int) : ℚ) := by exact_mod_cast hv1
  have q2 : ((5 * i : Int) : ℚ) < ((2 * v + 2 : Int) : ℚ) := by exact_mod_cast hv2
  have ht : F64.trunc (((5 * i : Int) : ℚ) * (2 : ℚ) ^ (-1 : Int)) = v := by
    apply trunc_eq_of_bounds
    · have : (0 : ℚ) ≤ ((5 * i : Int) : ℚ) := by exact_mod_cast (by omega : (0 : Int) ≤ 5 * i)
      norm_num at this ⊢
      linarith
    · push_cast at q1 ⊢; norm_num; linarith
    · push_cast at q2 ⊢; norm_num; linarith
  rw [growIvl_eq_max oob h2 (by omega) (by norm_num) (by norm_num),
    ofInt_exact (by rw [abs_le]; constructor <;> omega), hp, ht]
  omega

/-- The rows of the item after `Good` at ease 250 on the store `[row]`. -/
theorem answer_good_250 (oob : ℚ → Int) (row : Row) (now t ivl v : Int)
    (hitem : isItem 1 "alma".toList row = true) (hease : row.ease = some 250)
    (hivl : row.ivl = some ivl)
    (hv : growIvl oob (effectiveIvl ivl (elapsedDays oob now row.last_updated_seconds))
      (5 / 2) = v) :
    Answer oob { emptyStore with db := [row] } now t 1 "alma".toList AnswerGood =
      some { emptyStore with
        db := [{ row with ease := some 250, ivl := some v, last_updated_seconds := t,
                          next_review_seconds := some (wrap64 (t + wrap64 (v * 86400))) }] } := by
  have hfind : ({ emptyStore with db := [row] } : Repetition).db.find?
      (isItem 1 "alma".toList) = some row := by
    simp only [List.find?_cons, hitem]
  rw [Answer_eq oob _ now t 1 "alma".toList AnswerGood row 250 ivl hfind hease hivl,
    schedule_not_again oob _ now t 250 ivl _ AnswerGood (by decide), multiplier_good_250, hv]
  have he : newEase 250 AnswerGood = 250 := by decide
  simp only [List.map_cons, List.map_nil, updateRow, hitem, if_true, he]

/-- C5, counterexample: a stored interval of `math.MaxInt64` days (ease 250,
answered `Hard` on the day of the last review) is replaced by
`math.MinInt64` on amd64, and by a smaller interval on every platform. -/
theorem answer_interval_overflow :
    effectiveIvl maxInt64 (elapsedDays oobAmd64 0 0) = maxInt64 ∧
    (schedule oobAmd64 (20 * Second) 0 0 250 maxInt64 0 AnswerHard).ivl = minInt64 ∧
    ¬ ∃ oob : ℚ → Int,
      maxInt64 < (schedule oob (20 * Second) 0 0 250 maxInt64 0 AnswerHard).ivl := by
  refine ⟨effectiveIvl_at_zero oobAmd64 maxInt64 (by decide), ?_, ?_⟩
  · rw [schedule_ivl _ _ _ _ _ _ _ _ (by decide),
      effectiveIvl_at_zero oobAmd64 maxInt64 (by decide)]
    exact (growIvl_hard_maxInt64 oobAmd64).2
  · rintro ⟨oob, h⟩
    rw [schedule_ivl _ _ _ _ _ _ _ _ (by decide),
      effectiveIvl_at_zero oob maxInt64 (by decide)] at h
    have := (growIvl_hard_maxInt64 oob).1
    omega

/-- C5, amended: for every item whose stored ease is in `[130, 1300]` and
whose interval is in `[0, 2^53]`, and every answer other than `Again`, the
interval stored by `Answer` is strictly greater than the effective interval,
and so than the stored interval. -/
theorem answer_interval_increases (oob : ℚ → Int) (againDelay now t ease ivl last_update : Int)
    (answ : AnswerEase) (hq : answ ≠ AnswerAgain)
    (he1 : 130 ≤ ease) (he2 : ease ≤ 1300) (hi0 : 0 ≤ ivl) (hi53 : ivl ≤ 2 ^ 53) :
    effectiveIvl ivl (elapsedDays oob now last_update) <
        (schedule oob againDelay now t ease ivl last_update answ).ivl ∧
      ivl < (schedule oob againDelay now t ease ivl last_update answ).ivl := by
  have hd := (elapsedDays_bounds oob now last_update).2
  obtain ⟨hl1, -⟩ := le_effectiveIvl ivl (elapsedDays oob now last_update)
  have hu : effectiveIvl ivl (elapsedDays oob now last_update) ≤ 2 ^ 53 := by
    unfold effectiveIvl
    split_ifs <;> omega
  have hm : 1 ≤ multiplier ease answ :=
    one_le_multiplier ease answ (by omega) (by unfold maxInt64; omega)
  have key : effectiveIvl ivl (elapsedDays oob now last_update) <
      (schedule oob againDelay now t ease ivl last_update answ).ivl := by
    rw [schedule_ivl oob againDelay now t ease ivl last_update answ hq]
    rcases lt_or_le (effectiveIvl ivl (elapsedDays oob now last_update)) 2 with h | h
    · have h01 : effectiveIvl ivl (elapsedDays oob now last_update) = 0 ∨
          effectiveIvl ivl (elapsedDays oob now last_update) = 1 := by omega
      rcases h01 with h0 | h1
      · rw [h0, growIvl_zero]; decide
      · rw [h1, growIvl_one]; decide
    · rw [growIvl_eq_max oob h hu hm (multiplier_le ease answ)]
      omega
  exact ⟨key, lt_of_le_of_lt hl1 key⟩

/-- Witness of C5: `Good` at ease 250 on a stored interval of 10. -/
theorem answer_interval_increases_witness :
    (AnswerGood ≠ AnswerAgain ∧ (130 : Int) ≤ 250 ∧ (250 : Int) ≤ 1300 ∧ (0 : Int) ≤ 10 ∧
      (10 : Int) ≤ 2 ^ 53) ∧
    (effectiveIvl 10 (elapsedDays oobAmd64 0 0) <
        (schedule oobAmd64 (20 * Second) 0 0 250 10 0 AnswerGood).ivl ∧
      10 < (schedule oobAmd64 (20 * Second) 0 0 250 10 0 AnswerGood).ivl) :=
  ⟨⟨by decide, by decide, by decide, by decide, by decide⟩,
    answer_interval_increases oobAmd64 (20 * Second) 0 0 250 10 0 AnswerGood (by decide)
      (by decide) (by decide) (by decide) (by decide)⟩

/-! ## C6: the cap on the multiplier -/

theorem multiplier_easy_1300 : multiplier 1300 AnswerEasy = 13 := by
  unfold multiplier answerSwitch
  rw [if_neg (by decide), if_neg (by decide), if_neg (by decide), if_pos rfl]
  apply min_eq_right
  have hw : wrap64 (1300 + 15) = 1315 := by decide
  rw [hw, ofInt_exact (by norm_num)]
  have a : ((1300 : Int) : ℚ) ≤ ((1315 : Int) : ℚ) * easyBonus := by
    push_cast
    nlinarith [one_le_easyBonus]
  have b : ((1300 : Int) : ℚ) ≤ F64.mul ((1315 : Int) : ℚ) easyBonus :=
    F64.intCast_le_round (by norm_num) a
  have c : ((13 : Int) : ℚ) ≤ F64.mul ((1315 : Int) : ℚ) easyBonus / 100 := by
    rw [le_div_iff₀ (by norm_num)]
    push_cast at b ⊢
    linarith
  have := F64.intCast_le_round (by norm_num) c
  simpa [F64.div] using this

theorem growIvl_five_thirteen (oob : ℚ → Int) : growIvl oob 5 13 = 65 := by
  have hp : F64.mul (F64.ofInt 5) 13 = ((65 : Int) : ℚ) := by
    rw [ofInt_exact (by norm_num)]
    unfold F64.mul
    have := F64.round_intCast 65 (by norm_num)
    norm_num at this ⊢
    exact this
  unfold growIvl
  rw [hp, F64.toInt64_of_bounds oob (by unfold minInt64; norm_num)
    (by unfold maxInt64; norm_num), F64.trunc_intCast]
  decide

/-- C6: the multiplier `Answer` applies never exceeds 13, for any ease and
any answer; for ease 1300 and `Easy` it is exactly 13, the stored ease stays
1300, and an effective interval of 5 becomes 65. -/
theorem multiplier_capped :
    (∀ (ease : Int) (answ : AnswerEase), multiplier ease answ ≤ 13) ∧
    multiplier 1300 AnswerEasy = 13 ∧
    ∀ (oob : ℚ → Int) (againDelay now t ivl last_update : Int),
      effectiveIvl ivl (elapsedDays oob now last_update) = 5 →
        (schedule oob againDelay now t 1300 ivl last_update AnswerEasy).ease = 1300 ∧
        (schedule oob againDelay now t 1300 ivl last_update AnswerEasy).ivl = 65 := by
  refine ⟨multiplier_le, multiplier_easy_1300, ?_⟩
  intro oob againDelay now t ivl last_update h
  constructor
  · rw [schedule_ease]; decide
  · rw [schedule_ivl _ _ _ _ _ _ _ _ (by decide), h, multiplier_easy_1300]
    exact growIvl_five_thirteen oob

/-- Witness of C6: the item with ease 1300 and interval 5 answered `Easy` on
the day of its last review. -/
theorem multiplier_capped_witness :
    effectiveIvl 5 (elapsedDays oobAmd64 0 0) = 5 ∧
      (schedule oobAmd64 (20 * Second) 0 0 1300 5 0 AnswerEasy).ease = 1300 ∧
      (schedule oobAmd64 (20 * Second) 0 0 1300 5 0 AnswerEasy).ivl = 65 :=
  ⟨effectiveIvl_at_zero oobAmd64 5 (by decide),
    multiplier_capped.2.2 oobAmd64 (20 * Second) 0 0 5 0
      (effectiveIvl_at_zero oobAmd64 5 (by decide))⟩

/-! ## C7: masking the word -/

/-- An occurrence of `old` cannot start inside a block `new` that shares no
character with it. -/
theorem infix_of_infix_append {old new rest : GoString} (hold : old ≠ [])
    (hdisj : ∀ c ∈ new, c ∉ old) (h : old <:+: new ++ rest) : old <:+: rest := by
  induction new with
  | nil => simpa using h
  | cons n ns ih =>
    rw [List.cons_append, List.infix_cons_iff] at h
    rcases h with h | h
    · exfalso
      cases old with
      | nil => exact hold rfl
      | cons o os =>
        have hon : o = n := (List.cons_prefix_cons.mp h).1
        exact hdisj n (List.mem_cons_self _ _) (hon ▸ List.mem_cons_self _ _)
    · exact ih (fun c hc => hdisj c (List.mem_cons_of_mem _ hc)) h

/-- Up to the first replacement the output of the scan is the input: a
prefix of the output that has no character of `new` is a prefix of the
input. -/
theorem prefix_of_prefix_replaceGo {old new : GoString} (hnew : new ≠ []) (p s : GoString)
    (hp : ∀ c ∈ p, c ∉ new) (h : p <+: replaceGo old new 0 s) : p <+: s := by
  induction s generalizing p with
  | nil =>
    simp only [replaceGo] at h
    rw [List.prefix_nil.mp h]
  | cons c cs ih =>
    cases p with
    | nil => exact List.nil_prefix
    | cons a as =>
      simp only [replaceGo] at h
      split_ifs at h with hm
      · exfalso
        cases new with
        | nil => exact hnew rfl
        | cons n ns =>
          rw [List.cons_append] at h
          have han : a = n := (List.cons_prefix_cons.mp h).1
          exact hp a (List.mem_cons_self _ _) (han ▸ List.mem_cons_self _ _)
      · obtain ⟨hac, hrest⟩ := List.cons_prefix_cons.mp h
        rw [hac]
        exact List.cons_prefix_cons.mpr
          ⟨rfl, ih as (fun x hx => hp x (List.mem_cons_of_mem _ hx)) hrest⟩

/-- After the scan no occurrence of `old` is left, when `old` and `new` are
non-empty and share no character. -/
theorem not_infix_replaceGo {old new : GoString} (hold : old ≠ []) (hnew : new ≠ [])
    (hdisj : ∀ c ∈ new, c ∉ old) (skip : Nat) (s : GoString) :
    ¬ old <:+: replaceGo old new skip s := by
  induction s generalizing skip with
  | nil =>
    simp only [replaceGo]
    intro h
    exact hold (List.infix_nil.mp h)
  | cons c cs ih =>
    cases skip with
    | succ k =>
      simp only [replaceGo]
      exact ih k
    | zero =>
      simp only [replaceGo]
      split_ifs with hm
      · intro h
        exact ih _ (infix_of_infix_append hold hdisj h)
      · intro h
        rw [List.infix_cons_iff] at h
        rcases h with h | h
        · apply hm
          have h' : old <+: replaceGo old new 0 (c :: cs) := by
            simp only [replaceGo, if_neg hm]
            exact h
          exact prefix_of_prefix_replaceGo hnew old (c :: cs)
            (fun x hx hxn => hdisj x hxn hx) h'
        · exact ih 0 h

/-- A non-empty word without an asterisk does not occur in the masked text. -/
theorem not_infix_presentDefinition (w d : GoString) (hw : w ≠ []) (hstar : '*' ∉ w) :
    ¬ w <:+: presentDefinition w d := by
  unfold presentDefinition ReplaceAll
  simp only [if_neg hw]
  apply not_infix_replaceGo hw (by decide)
  intro c hc
  have : c = '*' := by
    unfold mask at hc
    exact (List.mem_replicate.mp hc).2
  rw [this]
  exact hstar

/-- For a non-empty word that contains no asterisk the text returned by
`Repeat` does not contain the word. -/
theorem repeat_masks_plain_word (r : Repetition) (now chatID : Int) (row : Row)
    (hrow : r.db.find? (isDue now chatID) = some row)
    (hw : row.word ≠ []) (hstar : '*' ∉ row.word) :
    ∃ text, Repeat r now chatID = some text ∧ ¬ row.word <:+: text := by
  refine ⟨presentDefinition row.word row.definition, ?_,
    not_infix_presentDefinition _ _ hw hstar⟩
  unfold Repeat
  rw [hrow]
  rfl

/-- C7, at the failing input: for the due item with word `*` and definition
`times`, blank line, `2 * 3`, the word occurs in the definition body and the
text `Repeat` returns is `2 ******** 3`, which contains the word. -/
theorem repeat_leaks_asterisk :
    "*".toList <:+: "2 * 3".toList ∧
    Repeat starStore 0 1 = some "2 ******** 3".toList ∧
    "*".toList <:+: "2 ******** 3".toList := by
  refine ⟨by decide, by decide, by decide⟩

/-! ## C8: the `alma` scenario -/

theorem NewRepetition_eq (oob : ℚ → Int) (db : List Row) (stages : List Int)
    (h1 : stages ≠ []) (h2 : stages.length < maxStages) :
    NewRepetition oob db stages =
      some { db := migrate (stagesTable oob stages) db, initialEase := 250, initialIvl := 0,
             againDelay := 20 * Second } := by
  unfold NewRepetition
  have : stages.length ≠ 0 := fun h => h1 (List.length_eq_zero.mp h)
  rw [if_neg this, if_neg (by omega)]

theorem NewRepetition_some (oob : ℚ → Int) (db : List Row) (stages : List Int) (r : Repetition)
    (h : NewRepetition oob db stages = some r) :
    r = { db := migrate (stagesTable oob stages) db, initialEase := 250, initialIvl := 0,
          againDelay := 20 * Second } := by
  unfold NewRepetition at h
  split_ifs at h
  simp only [Option.some.injEq] at h
  exact h.symm

theorem present_alma :
    presentDefinition "alma".toList "fruit\n\nalma is a fruit".toList =
      "******** is a fruit".toList := by
  decide

/-- C8, amended: on an empty store, after
`Save(1, "alma", "fruit\n\nalma is a fruit")`, `Repeat(1)` returns exactly
`"******** is a fruit"`: eight asterisks, then one space, then `is a fruit`;
the first paragraph is dropped and the word is masked. -/
theorem repeat_alma (oob : ℚ → Int) (stages : List Int) (r : Repetition) (t₀ now : Int)
    (hnew : NewRepetition oob [] stages = some r)
    (h1 : minInt64 ≤ t₀) (h2 : t₀ ≤ maxInt64) (h3 : t₀ ≤ now) :
    Repeat (Save oob r t₀ 1 "alma".toList "fruit\n\nalma is a fruit".toList) now 1 =
      some "******** is a fruit".toList := by
  rw [NewRepetition_some oob [] stages r hnew]
  have hw : wrap64 (t₀ + wrap64 (0 * F64.toInt64 oob (Duration.Seconds Hour))) = t₀ := by
    have w0 : wrap64 0 = 0 := by decide
    rw [zero_mul, w0, add_zero, wrap64_of_range h1 h2]
  unfold Repeat Save
  simp only [migrate, List.map_nil, List.nil_append, hw, List.find?_cons, isDue, h3,
    decide_True, Bool.and_self, Option.map_some']
  rw [present_alma]

/-- Witness of C8: saved at second 100, repeated at second 100. -/
theorem repeat_alma_witness :
    (NewRepetition oobAmd64 [] [Hour] = some emptyStore ∧ minInt64 ≤ 100 ∧
      (100 : Int) ≤ maxInt64 ∧ (100 : Int) ≤ 100) ∧
    Repeat (Save oobAmd64 emptyStore 100 1 "alma".toList "fruit\n\nalma is a fruit".toList)
      100 1 = some "******** is a fruit".toList :=
  ⟨⟨NewRepetition_eq oobAmd64 [] [Hour] (by decide) (by decide), by decide, by decide,
      by decide⟩,
    repeat_alma oobAmd64 [Hour] emptyStore 100 100
      (NewRepetition_eq oobAmd64 [] [Hour] (by decide) (by decide)) (by decide) (by decide)
      (by decide)⟩

/-- C8, counterexample: the text returned in the scenario is not the string
with two spaces after the asterisks. -/
theorem repeat_alma_one_space :
    NewRepetition oobAmd64 [] [Hour] = some emptyStore ∧
    Repeat (Save oobAmd64 emptyStore 100 1 "alma".toList "fruit\n\nalma is a fruit".toList)
      100 1 = some "******** is a fruit".toList ∧
    Repeat (Save oobAmd64 emptyStore 100 1 "alma".toList "fruit\n\nalma is a fruit".toList)
      100 1 ≠ some "********  is a fruit".toList := by
  have hnew := NewRepetition_eq oobAmd64 [] [Hour] (by decide) (by decide)
  have hrep : Repeat (Save oobAmd64 emptyStore 100 1 "alma".toList
      "fruit\n\nalma is a fruit".toList) 100 1 = some "******** is a fruit".toList := by
    have hw : wrap64 (100 + wrap64 (0 * F64.toInt64 oobAmd64 (Duration.Seconds Hour))) = 100 := by
      rw [zero_mul]; decide
    unfold Repeat Save emptyStore
    simp only [List.nil_append, hw, List.find?_cons, isDue, le_refl, decide_True,
      Bool.and_self, Option.map_some']
    rw [present_alma]
  refine ⟨hnew, hrep, ?_⟩
  rw [hrep]
  decide

/-! ## C9: the migration is idempotent -/

theorem migrateRow_of_some (tbl : List (Int × Int)) (row : Row)
    (h : row.next_review_seconds ≠ none) : migrateRow tbl row = row := by
  unfold migrateRow
  split
  · rfl
  · next hnone => exact absurd hnone h

theorem migrateRow_idem (tbl : List (Int × Int)) (row : Row) :
    migrateRow tbl (migrateRow tbl row) = migrateRow tbl row := by
  cases hnr : row.next_review_seconds with
  | some v =>
    have h := migrateRow_of_some tbl row (by rw [hnr]; simp)
    rw [h, h]
  | none =>
    have h1 : migrateRow tbl row =
        { row with
          next_review_seconds :=
            (stageDuration tbl row.stage).map fun d => row.last_updated_seconds + d
          ease := some 250
          ivl := some 0 } := by
      unfold migrateRow; rw [hnr]
    rw [h1]
    cases hd : stageDuration tbl row.stage with
    | none => simp [migrateRow, hd]
    | some d => simp [migrateRow, hd]

theorem migrate_idem (tbl : List (Int × Int)) (db : List Row) :
    migrate tbl (migrate tbl db) = migrate tbl db := by
  unfold migrate
  rw [List.map_map]
  apply List.map_congr_left
  intro row _
  exact migrateRow_idem tbl row

/-- C9: for every table content and every valid stage list, `NewRepetition`
succeeds, running it again on the migrated table gives the same state, and a
row whose `next_review_seconds` is not `NULL` is left as it is. -/
theorem migration_idempotent (oob : ℚ → Int) (db : List Row) (stages : List Int)
    (h1 : stages ≠ []) (h2 : stages.length < maxStages) :
    ∃ r, NewRepetition oob db stages = some r ∧
      NewRepetition oob r.db stages = some r ∧
      r.db = db.map (migrateRow (stagesTable oob stages)) ∧
      ∀ row, row.next_review_seconds ≠ none → migrateRow (stagesTable oob stages) row = row := by
  refine ⟨_, NewRepetition_eq oob db stages h1 h2, ?_, rfl,
    fun row h => migrateRow_of_some _ row h⟩
  rw [NewRepetition_eq oob _ stages h1 h2, migrate_idem]

/-- Witness of C9: a table with one legacy row and one migrated row, stages
of one hour and one day. -/
theorem migration_idempotent_witness :
    ([Hour, 24 * Hour] ≠ [] ∧ [Hour, 24 * Hour].length < maxStages) ∧
    ∃ r, NewRepetition oobAmd64 [legacyRow, sampleRow] [Hour, 24 * Hour] = some r ∧
      NewRepetition oobAmd64 r.db [Hour, 24 * Hour] = some r ∧
      r.db = [legacyRow, sampleRow].map (migrateRow (stagesTable oobAmd64 [Hour, 24 * Hour])) ∧
      ∀ row, row.next_review_seconds ≠ none →
        migrateRow (stagesTable oobAmd64 [Hour, 24 * Hour]) row = row :=
  ⟨⟨by decide, by decide⟩,
    migration_idempotent oobAmd64 [legacyRow, sampleRow] [Hour, 24 * Hour] (by decide)
      (by decide)⟩

/-! ## C10: what the migration looks up -/

theorem find_enumFrom_none (oob : ℚ → Int) (l : List Int) (n : Nat) (k : Int)
    (h : k < n ∨ (n : Int) + l.length ≤ k) :
    ((l.enumFrom n).map fun ks => ((ks.1 : Int), durationSeconds oob ks.2)).find?
      (fun e => e.1 = k) = none := by
  induction l generalizing n with
  | nil => rfl
  | cons s rest ih =>
    simp only [List.enumFrom_cons, List.map_cons, List.find?_cons]
    have hne : ¬ ((n : Int) = k) := by
      simp only [List.length_cons, Nat.cast_add, Nat.cast_one] at h
      omega
    simp only [hne, decide_False]
    apply ih
    simp only [List.length_cons, Nat.cast_add, Nat.cast_one] at h ⊢
    omega

theorem find_enumFrom_some (oob : ℚ → Int) (l : List Int) (n i : Nat) (s : Int)
    (h : l[i]? = some s) :
    ((l.enumFrom n).map fun ks => ((ks.1 : Int), durationSeconds oob ks.2)).find?
      (fun e => e.1 = ((n + i : Nat) : Int)) = some (((n + i : Nat) : Int), durationSeconds oob s) := by
  induction l generalizing n i with
  | nil => simp at h
  | cons a rest ih =>
    simp only [List.enumFrom_cons, List.map_cons, List.find?_cons]
    cases i with
    | zero =>
      simp only [List.getElem?_cons_zero, Option.some.injEq] at h
      simp [h]
    | succ j =>
      simp only [List.getElem?_cons_succ] at h
      have hne : ¬ ((n : Int) = ((n + (j + 1) : Nat) : Int)) := by omega
      simp only [hne, decide_False]
      have := ih (n + 1) j h
      have e : n + 1 + j = n + (j + 1) := by omega
      rw [e] at this
      exact this

/-- A stage inside the configured list is looked up as its own duration. -/
theorem stageDuration_in_range (oob : ℚ → Int) (stages : List Int) (i : Nat) (s : Int)
    (h : stages[i]? = some s) :
    stageDuration (stagesTable oob stages) (i : Int) = some (durationSeconds oob s) := by
  unfold stageDuration stagesTable List.enum
  have := find_enumFrom_some oob stages 0 i s h
  simp only [Nat.zero_add] at this
  rw [List.find?_append, this]
  rfl

/-- A stage outside the configured list has no row in `Stages`, unless it is
`maxStages` itself: the subquery is `NULL`. -/
theorem stageDuration_out_of_range (oob : ℚ → Int) (stages : List Int) (k : Int)
    (h : k < 0 ∨ (stages.length : Int) ≤ k) (hk : k ≠ maxStages) :
    stageDuration (stagesTable oob stages) k = none := by
  unfold stageDuration stagesTable List.enum
  have := find_enumFrom_none oob stages 0 k (by simpa using h)
  rw [List.find?_append, this]
  simp [List.find?_cons, Ne.symm hk]

/-- The entry `maxStages` holds the last configured duration. -/
theorem stageDuration_maxStages (oob : ℚ → Int) (stages : List Int)
    (h : stages.length < maxStages) :
    stageDuration (stagesTable oob stages) maxStages =
      some (durationSeconds oob (stages.getLastD 0)) := by
  unfold stageDuration stagesTable List.enum
  have := find_enumFrom_none oob stages 0 maxStages (by right; simp; omega)
  rw [List.find?_append, this]
  simp [List.find?_cons]

/-- A legacy row whose stage is inside the list gets
`last_updated_seconds + duration`, ease 250 and interval 0. -/
theorem migrateRow_in_range (oob : ℚ → Int) (stages : List Int) (row : Row) (i : Nat) (s : Int)
    (hnull : row.next_review_seconds = none) (hstage : row.stage = i)
    (h : stages[i]? = some s) :
    migrateRow (stagesTable oob stages) row =
      { row with
        next_review_seconds := some (row.last_updated_seconds + durationSeconds oob s)
        ease := some 250
        ivl := some 0 } := by
  unfold migrateRow
  rw [hnull]
  simp only [hstage, stageDuration_in_range oob stages i s h, Option.map_some']

/-- A legacy row whose stage is outside the list, and not `maxStages`, keeps
a `NULL` `next_review_seconds`. -/
theorem migrateRow_out_of_range (oob : ℚ → Int) (stages : List Int) (row : Row)
    (hnull : row.next_review_seconds = none)
    (h : row.stage < 0 ∨ (stages.length : Int) ≤ row.stage) (hk : row.stage ≠ maxStages) :
    migrateRow (stagesTable oob stages) row =
      { row with next_review_seconds := none, ease := some 250, ivl := some 0 } := by
  unfold migrateRow
  rw [hnull]
  simp only [stageDuration_out_of_range oob stages row.stage h hk, Option.map_none']

theorem durationSeconds_whole (oob : ℚ → Int) (s : Int) (h0 : 0 ≤ s) (h1 : s ≤ 2 ^ 53) :
    durationSeconds oob (s * Second) = s := by
  unfold durationSeconds
  rw [Duration.Seconds_whole s (by rw [abs_of_nonneg h0]; exact h1),
    F64.toInt64_of_bounds, F64.trunc_intCast]
  · have : minInt64 ≤ s := by unfold minInt64; omega
    exact_mod_cast this
  · have : s ≤ maxInt64 := by unfold maxInt64; omega
    exact_mod_cast this

/-- C10, at the failing input: with the two stages of one hour and one day,
the legacy row at stage 5 (outside the list) comes out of the migration with
ease 250 and interval 0 but with `next_review_seconds` still `NULL`, where
the claim has `1000 + 86400`, the last configured duration. -/
theorem migration_skips_shrunk_stage :
    legacyRow.next_review_seconds = none ∧ [Hour, 24 * Hour].length ≤ legacyRow.stage ∧
    durationSeconds oobAmd64 (24 * Hour) = 86400 ∧
    NewRepetition oobAmd64 [legacyRow] [Hour, 24 * Hour] =
      some { db := [{ legacyRow with next_review_seconds := none, ease := some 250,
                                     ivl := some 0 }],
             initialEase := 250, initialIvl := 0, againDelay := 20 * Second } := by
  refine ⟨rfl, by decide, ?_, ?_⟩
  · have : 24 * Hour = 86400 * Second := by decide
    rw [this, durationSeconds_whole oobAmd64 86400 (by norm_num) (by norm_num)]
  · rw [NewRepetition_eq oobAmd64 _ _ (by decide) (by decide)]
    unfold migrate
    rw [List.map_cons, List.map_nil,
      migrateRow_out_of_range oobAmd64 [Hour, 24 * Hour] legacyRow rfl
        (by right; decide) (by decide)]

/-! ## C11: the relation between interval and due time -/

/-- What `Answer` writes at a clock reading within `2^62` of the epoch: the
interval and the due time are in the relation of `scheduleConsistent`, unless
the interval is beyond `2^45` days. -/
theorem schedule_consistent (oob : ℚ → Int) (now t ease ivl last_update : Int)
    (answ : AnswerEase) (h1 : -(2 ^ 62) ≤ t) (h2 : t ≤ 2 ^ 62) :
    (schedule oob (20 * Second) now t ease ivl last_update answ).last_updated_seconds = t ∧
    ((schedule oob (20 * Second) now t ease ivl last_update answ).next_review_seconds =
        t + (schedule oob (20 * Second) now t ease ivl last_update answ).ivl * 86400 ∨
      ((schedule oob (20 * Second) now t ease ivl last_update answ).ivl = 0 ∧
        (schedule oob (20 * Second) now t ease ivl last_update answ).next_review_seconds =
          t + 20) ∨
      2 ^ 45 < |(schedule oob (20 * Second) now t ease ivl last_update answ).ivl|) := by
  by_cases hq : answ = AnswerAgain
  · subst hq
    rw [schedule_again oob now t ease ivl last_update (by unfold minInt64; omega)
      (by unfold maxInt64; omega)]
    exact ⟨rfl, Or.inr (Or.inl ⟨rfl, rfl⟩)⟩
  · unfold schedule
    simp only [if_neg hq, daySeconds, true_and]
    generalize growIvl oob (effectiveIvl ivl (elapsedDays oob now last_update))
      (multiplier ease answ) = g
    rcases le_or_lt |g| (2 ^ 45) with hg | hg
    · left
      rw [abs_le] at hg
      rw [wrap64_of_range (x := g * 86400) (by unfold minInt64; omega)
        (by unfold maxInt64; omega),
        wrap64_of_range (by unfold minInt64; omega) (by unfold maxInt64; omega)]
    · right; right; exact hg

theorem scheduleConsistent_iff (row : Row) :
    scheduleConsistent row = true ↔
      ∃ i nr, row.ivl = some i ∧ row.next_review_seconds = some nr ∧
        (nr = row.last_updated_seconds + i * 86400 ∨
          (i = 0 ∧ nr = row.last_updated_seconds + 20)) := by
  unfold scheduleConsistent
  cases hi : row.ivl with
  | none => simp
  | some i =>
    cases hn : row.next_review_seconds with
    | none => simp
    | some nr => simp

/-- The row `Save` appends is consistent. -/
theorem saved_row_consistent (oob : ℚ → Int) (t chatID : Int) (word definition : GoString)
    (ease : Int) (h1 : -(2 ^ 62) ≤ t) (h2 : t ≤ 2 ^ 62) :
    scheduleConsistent
      { chat_id := chatID, word := word, definition := definition, stage := 0,
        ease := some ease, ivl := some 0, last_updated_seconds := t,
        next_review_seconds :=
          some (wrap64 (t + wrap64 (0 * F64.toInt64 oob (Duration.Seconds Hour)))) } = true := by
  have w0 : wrap64 0 = 0 := by decide
  rw [zero_mul, w0, add_zero,
    wrap64_of_range (by unfold minInt64; omega) (by unfold maxInt64; omega)]
  simp [scheduleConsistent]

/-- A row rewritten by `Answer` is consistent or has an interval beyond
`2^45` days. -/
theorem updated_row_consistent (oob : ℚ → Int) (now t ease ivl last_update chatID : Int)
    (word : GoString) (answ : AnswerEase) (row : Row) (h1 : -(2 ^ 62) ≤ t) (h2 : t ≤ 2 ^ 62)
    (hit : isItem chatID word row = true) :
    scheduleConsistent (updateRow chatID word
        (schedule oob (20 * Second) now t ease ivl last_update answ) row) = true ∨
      ∃ i, (updateRow chatID word
        (schedule oob (20 * Second) now t ease ivl last_update answ) row).ivl = some i ∧
        2 ^ 45 < |i| := by
  obtain ⟨hl, hc⟩ := schedule_consistent oob now t ease ivl last_update answ h1 h2
  generalize schedule oob (20 * Second) now t ease ivl last_update answ = s at hl hc
  have hu : updateRow chatID word s row =
      { row with ease := some s.ease, ivl := some s.ivl,
                 last_updated_seconds := s.last_updated_seconds,
                 next_review_seconds := some s.next_review_seconds } := by
    unfold updateRow; rw [if_pos hit]
  rw [hu]
  rcases hc with hc | hc | hc
  · left
    rw [scheduleConsistent_iff]
    exact ⟨s.ivl, s.next_review_seconds, rfl, rfl, Or.inl (by rw [hc, hl])⟩
  · left
    rw [scheduleConsistent_iff]
    exact ⟨s.ivl, s.next_review_seconds, rfl, rfl, Or.inr ⟨hc.1, by rw [hc.2, hl]⟩⟩
  · right
    exact ⟨s.ivl, rfl, hc⟩

/-- A property of rows that holds for every consistent row and for every row
with an interval beyond `2^45` days is kept by every call. -/
theorem step_preserves (oob : ℚ → Int) (P : Row → Prop)
    (hcons : ∀ row, scheduleConsistent row = true → P row)
    (hbig : ∀ row i, row.ivl = some i → 2 ^ 45 < |i| → P row)
    (r : Repetition) (op : Op) (hop : opClockOk op = true)
    (hivl : r.initialIvl = 0) (hdelay : r.againDelay = 20 * Second)
    (hP : ∀ row ∈ r.db, P row) :
    (step oob r op).initialIvl = 0 ∧ (step oob r op).againDelay = 20 * Second ∧
      ∀ row ∈ (step oob r op).db, P row := by
  cases op with
  | save t chatID word definition =>
    simp only [opClockOk, decide_eq_true_eq] at hop
    refine ⟨hivl, hdelay, ?_⟩
    intro row hrow
    simp only [step, Save, List.mem_append, List.mem_singleton] at hrow
    rcases hrow with hrow | hrow
    · exact hP row hrow
    · rw [hrow, hivl]
      exact hcons _ (saved_row_consistent oob t chatID word definition _ hop.1 hop.2)
  | answer now t chatID word answ =>
    simp only [opClockOk, decide_eq_true_eq] at hop
    simp only [step]
    cases hfind : r.db.find? (isItem chatID word) with
    | none =>
      have : Answer oob r now t chatID word answ = none := by
        unfold Answer; rw [hfind]
      rw [this]
      exact ⟨hivl, hdelay, hP⟩
    | some found =>
      cases hease : found.ease with
      | none =>
        have : Answer oob r now t chatID word answ = none := by
          unfold Answer; rw [hfind]; simp only [hease]
        rw [this]
        exact ⟨hivl, hdelay, hP⟩
      | some ease =>
        cases hiv : found.ivl with
        | none =>
          have : Answer oob r now t chatID word answ = none := by
            unfold Answer; rw [hfind]; simp only [hease, hiv]
          rw [this]
          exact ⟨hivl, hdelay, hP⟩
        | some ivl =>
          rw [Answer_eq oob r now t chatID word answ found ease ivl hfind hease hiv]
          refine ⟨hivl, hdelay, ?_⟩
          intro row hrow
          simp only [Option.getD_some, List.mem_map] at hrow
          obtain ⟨old, hold, rfl⟩ := hrow
          by_cases hit : isItem chatID word old = true
          · rw [hdelay]
            rcases updated_row_consistent oob now t ease ivl found.last_updated_seconds chatID
              word answ old hop.1 hop.2 hit with h | ⟨i, hi, hb⟩
            · exact hcons _ h
            · exact hbig _ i hi hb
          · have : updateRow chatID word
                (schedule oob r.againDelay now t ease ivl found.last_updated_seconds answ) old =
                old := by
              unfold updateRow; rw [if_neg hit]
            rw [this]
            exact hP old hold
  | delete chatID word =>
    refine ⟨hivl, hdelay, ?_⟩
    intro row hrow
    simp only [step, Delete, List.mem_filter] at hrow
    exact hP row hrow.1

theorem run_preserves (oob : ℚ → Int) (P : Row → Prop)
    (hcons : ∀ row, scheduleConsistent row = true → P row)
    (hbig : ∀ row i, row.ivl = some i → 2 ^ 45 < |i| → P row)
    (ops : List Op) (r : Repetition) (hops : ∀ op ∈ ops, opClockOk op = true)
    (hivl : r.initialIvl = 0) (hdelay : r.againDelay = 20 * Second)
    (hP : ∀ row ∈ r.db, P row) :
    ∀ row ∈ (run oob r ops).db, P row := by
  induction ops generalizing r with
  | nil => exact hP
  | cons op rest ih =>
    obtain ⟨a, b, c⟩ := step_preserves oob P hcons hbig r op
      (hops op (List.mem_cons_self _ _)) hivl hdelay hP
    exact ih (step oob r op) (fun o ho => hops o (List.mem_cons_of_mem _ ho)) a b c

theorem durationSeconds_day (oob : ℚ → Int) : durationSeconds oob (24 * Hour) = 86400 := by
  have : 24 * Hour = 86400 * Second := by decide
  rw [this, durationSeconds_whole oob 86400 (by norm_num) (by norm_num)]

/-- The values `Answer` writes for `longRow` answered `Easy` on the day of
its last review. -/
theorem schedule_longRow (oob : ℚ → Int) :
    schedule oob (20 * Second) 0 0 1300 35184372088832 0 AnswerEasy =
      { ease := 1300, ivl := 457396837154816, last_updated_seconds := 0,
        next_review_seconds := 2625598582756999168 } := by
  have hg : growIvl oob 35184372088832 13 = 457396837154816 := by
    rw [growIvl_eq_max oob (by norm_num) (by norm_num) (by norm_num) (by norm_num),
      ofInt_exact (by norm_num)]
    have hp : F64.mul ((35184372088832 : Int) : ℚ) 13 = ((457396837154816 : Int) : ℚ) := by
      unfold F64.mul
      have := F64.round_intCast 457396837154816 (by norm_num)
      norm_num at this ⊢
      exact this
    rw [hp, F64.trunc_intCast]
    decide
  unfold schedule
  simp only [if_neg (show AnswerEasy ≠ AnswerAgain by decide), daySeconds,
    effectiveIvl_at_zero oob 35184372088832 (by decide), multiplier_easy_1300, hg]
  decide

/-- C11, counterexample: right after the migration (no call made yet) the
legacy row at stage 1 has interval 0 and is due one day after its last
update, and the legacy row at stage 5 has no due time; and `longRow`, which
is consistent, answered `Easy` gets an interval whose seconds do not fit
`int64`, so that its due time is not `last_updated_seconds + ivl * 86400`. -/
theorem store_not_consistent :
    (NewRepetition oobAmd64 [legacyStageOne, legacyRow] [Hour, 24 * Hour] =
        some { db := [{ legacyStageOne with next_review_seconds := some 87400,
                                            ease := some 250, ivl := some 0 },
                      { legacyRow with next_review_seconds := none, ease := some 250,
                                       ivl := some 0 }],
               initialEase := 250, initialIvl := 0, againDelay := 20 * Second } ∧
      scheduleConsistent { legacyStageOne with next_review_seconds := some 87400,
                                               ease := some 250, ivl := some 0 } = false ∧
      scheduleConsistent { legacyRow with next_review_seconds := none, ease := some 250,
                                          ivl := some 0 } = false) ∧
    (scheduleConsistent longRow = true ∧
      Answer oobAmd64 { emptyStore with db := [longRow] } 0 0 1 "alma".toList AnswerEasy =
        some { emptyStore with
          db := [{ longRow with ease := some 1300, ivl := some 457396837154816,
                                last_updated_seconds := 0,
                                next_review_seconds := some 2625598582756999168 }] } ∧
      scheduleConsistent { longRow with ease := some 1300, ivl := some 457396837154816,
                                        last_updated_seconds := 0,
                                        next_review_seconds := some 2625598582756999168 } =
        false) := by
  refine ⟨⟨?_, by decide, by decide⟩, by decide, ?_, by decide⟩
  · rw [NewRepetition_eq oobAmd64 _ _ (by decide) (by decide)]
    unfold migrate
    rw [List.map_cons, List.map_cons, List.map_nil,
      migrateRow_in_range oobAmd64 [Hour, 24 * Hour] legacyStageOne 1 (24 * Hour) rfl rfl rfl,
      migrateRow_out_of_range oobAmd64 [Hour, 24 * Hour] legacyRow rfl
        (by right; decide) (by decide),
      durationSeconds_day]
    rfl
  · rw [Answer_eq oobAmd64 _ 0 0 1 "alma".toList AnswerEasy longRow 1300 35184372088832
      (by decide) rfl rfl]
    have hs := schedule_longRow oobAmd64
    have hd : ({ emptyStore with db := [longRow] } : Repetition).againDelay = 20 * Second := rfl
    have hl : longRow.last_updated_seconds = 0 := rfl
    rw [hd, hl, hs]
    decide

/-- C11, amended: in every state reachable from a migrated table (whose rows
before the migration were legacy rows or consistent rows) by any sequence of
`Save`, `Answer` and `Delete` calls at clock readings within `2^62` seconds
of the epoch, every row is consistent
(`next_review_seconds = last_updated_seconds + ivl * 86400`, or `ivl = 0` and
`next_review_seconds = last_updated_seconds + 20`), or is a migrated legacy
row that no `Answer` has rewritten, or has an interval beyond `2^45` days. -/
theorem store_invariant (oob : ℚ → Int) (db₀ : List Row) (stages : List Int) (ops : List Op)
    (h1 : stages ≠ []) (h2 : stages.length < maxStages)
    (hdb : ∀ l ∈ db₀, l.next_review_seconds = none ∨ scheduleConsistent l = true)
    (hclock : ∀ op ∈ ops, opClockOk op = true) :
    ∃ r₀, NewRepetition oob db₀ stages = some r₀ ∧
      ∀ row ∈ (run oob r₀ ops).db,
        scheduleConsistent row = true ∨
        (∃ l ∈ db₀, l.next_review_seconds = none ∧
          row = migrateRow (stagesTable oob stages) l) ∨
        ∃ i, row.ivl = some i ∧ 2 ^ 45 < |i| := by
  refine ⟨_, NewRepetition_eq oob db₀ stages h1 h2, ?_⟩
  apply run_preserves oob _ (fun row h => Or.inl h)
    (fun row i hi hb => Or.inr (Or.inr ⟨i, hi, hb⟩)) ops _ hclock rfl rfl
  intro row hrow
  simp only [migrate, List.mem_map] at hrow
  obtain ⟨l, hl, rfl⟩ := hrow
  rcases hdb l hl with hn | hc
  · exact Or.inr (Or.inl ⟨l, hl, hn, rfl⟩)
  · left
    have hsome : l.next_review_seconds ≠ none := by
      obtain ⟨i, nr, -, hnr, -⟩ := (scheduleConsistent_iff l).mp hc
      rw [hnr]; simp
    rw [migrateRow_of_some _ l hsome]
    exact hc

/-- Witness of C11: the table with the legacy row at stage 1, then a `Save`,
an `Answer` and a `Delete`. -/
theorem store_invariant_witness :
    ([Hour, 24 * Hour] ≠ [] ∧ [Hour, 24 * Hour].length < maxStages ∧
      (∀ l ∈ [legacyStageOne],
        l.next_review_seconds = none ∨ scheduleConsistent l = true) ∧
      (∀ op ∈ [Op.save 100 1 "pear".toList "fruit".toList,
               Op.answer (100 * Second) 100 1 "alma".toList AnswerGood,
               Op.delete 1 "pear".toList], opClockOk op = true)) ∧
    ∃ r₀, NewRepetition oobAmd64 [legacyStageOne] [Hour, 24 * Hour] = some r₀ ∧
      ∀ row ∈ (run oobAmd64 r₀
          [Op.save 100 1 "pear".toList "fruit".toList,
           Op.answer (100 * Second) 100 1 "alma".toList AnswerGood,
           Op.delete 1 "pear".toList]).db,
        scheduleConsistent row = true ∨
        (∃ l ∈ [legacyStageOne], l.next_review_seconds = none ∧
          row = migrateRow (stagesTable oobAmd64 [Hour, 24 * Hour]) l) ∨
        ∃ i, row.ivl = some i ∧ 2 ^ 45 < |i| :=
  ⟨⟨by decide, by decide, by decide, by decide⟩,
    store_invariant oobAmd64 [legacyStageOne] [Hour, 24 * Hour] _ (by decide) (by decide)
      (by decide) (by decide)⟩

/-! ## C12: what `Answer` leaves alone -/

theorem zip_map_self (f : Row → Row) (l : List Row) :
    l.zip (l.map f) = l.map fun a => (a, f a) := by
  induction l with
  | nil => rfl
  | cons a rest ih => simp [ih]

theorem updateRow_of_not_item (chatID : Int) (word : GoString) (s : Sched) (row : Row)
    (h : isItem chatID word row = false) : updateRow chatID word s row = row := by
  unfold updateRow
  rw [if_neg (by rw [h]; simp)]

/-- The `UPDATE` changes no more rows than the `WHERE` clause selects. -/
theorem rowsChanged_update_le (chatID : Int) (word : GoString) (s : Sched) (l : List Row) :
    rowsChanged l (l.map (updateRow chatID word s)) ≤ (l.filter (isItem chatID word)).length := by
  unfold rowsChanged
  rw [zip_map_self]
  induction l with
  | nil => simp
  | cons a rest ih =>
    simp only [List.map_cons, List.filter_cons]
    cases hit : isItem chatID word a
    · have : updateRow chatID word s a = a := updateRow_of_not_item chatID word s a hit
      simp only [this, ne_eq, not_true_eq_false, decide_False, Bool.false_eq_true, ↓reduceIte]
      exact ih
    · simp only [↓reduceIte, List.length_cons]
      split_ifs
      · simp only [List.length_cons]; omega
      · omega

/-- Handling another chat neither touches the reminder time of `chat` nor
sends to it. -/
theorem remindChat_other (clock : Int → Int × Int) (s : ReminderState) (c chat : Int)
    (h : c ≠ chat) :
    (remindChat clock s c).db chat = s.db chat ∧
      (remindChat clock s c).sent.count chat = s.sent.count chat := by
  unfold remindChat
  split_ifs
  · constructor
    · simp only [UpdateLastReminderTime, if_neg (Ne.symm h)]
    · simp only [List.count_append, List.count_cons, List.count_nil, beq_iff_eq, if_neg h,
        add_zero]
  · exact ⟨rfl, rfl⟩

/-- Within 24 hours of the recorded reminder time nothing is sent. -/
theorem remindChat_quiet (clock : Int → Int × Int) (s : ReminderState) (chat t : Int)
    (hdb : s.db chat = some t) (hclock : (clock chat).1 ≤ (t + 86400) * Second) :
    remindChat clock s chat = s := by
  have hH : 24 * Hour = 86400 * Second := by decide
  unfold remindChat LastReminderTime
  rw [hdb, Option.getD_some, if_neg]
  rw [hH]
  have : (t + 86400) * Second = t * Second + 86400 * Second := by ring
  omega

/-- A chat without a recorded reminder time gets a notification once the
clock is past the first day of the epoch, and the time is recorded. -/
theorem remindChat_first (clock : Int → Int × Int) (s : ReminderState) (chat : Int)
    (hdb : s.db chat = none) (hclock : 24 * Hour < (clock chat).1) :
    (remindChat clock s chat).db chat = some (clock chat).2 ∧
      (remindChat clock s chat).sent.count chat = s.sent.count chat + 1 := by
  unfold remindChat LastReminderTime
  rw [hdb, Option.getD_none, zero_mul, zero_add, if_pos hclock]
  constructor
  · simp only [UpdateLastReminderTime, if_true]
  · simp only [List.count_append, List.count_cons, List.count_nil, beq_self_eq_true, if_true]

theorem loopPass_others (clock : Int → Int × Int) (cs : List Int) (s : ReminderState)
    (chat : Int) (h : chat ∉ cs) :
    (loopPass s (cs, clock)).db chat = s.db chat ∧
      (loopPass s (cs, clock)).sent.count chat = s.sent.count chat := by
  induction cs generalizing s with
  | nil => exact ⟨rfl, rfl⟩
  | cons c rest ih =>
    have hc : c ≠ chat := fun e => h (e ▸ List.mem_cons_self _ _)
    have hrest : chat ∉ rest := fun e => h (List.mem_cons_of_mem _ e)
    obtain ⟨a, b⟩ := remindChat_other clock s c chat hc
    obtain ⟨a', b'⟩ := ih (remindChat clock s c) hrest
    simp only [loopPass, List.foldl_cons] at a' b' ⊢
    exact ⟨a'.trans a, b'.trans b⟩

theorem loopPass_quiet (clock : Int → Int × Int) (cs : List Int) (s : ReminderState)
    (chat t : Int) (hdb : s.db chat = some t)
    (hclock : (clock chat).1 ≤ (t + 86400) * Second) :
    (loopPass s (cs, clock)).db chat = some t ∧
      (loopPass s (cs, clock)).sent.count chat = s.sent.count chat := by
  induction cs generalizing s with
  | nil => exact ⟨hdb, rfl⟩
  | cons c rest ih =>
    simp only [loopPass, List.foldl_cons]
    by_cases hc : c = chat
    · rw [hc, remindChat_quiet clock s chat t hdb hclock]
      exact ih s hdb
    · obtain ⟨a, b⟩ := remindChat_other clock s c chat hc
      obtain ⟨a', b'⟩ := ih (remindChat clock s c) (a.trans hdb)
      simp only [loopPass] at a' b'
      exact ⟨a', b'.trans b⟩

theorem loopPass_first (clock : Int → Int × Int) (cs : List Int) (s : ReminderState)
    (chat : Int) (hdb : s.db chat = none) (hmem : chat ∈ cs) (hnd : cs.Nodup)
    (hclock : 24 * Hour < (clock chat).1) :
    (loopPass s (cs, clock)).db chat = some (clock chat).2 ∧
      (loopPass s (cs, clock)).sent.count chat = s.sent.count chat + 1 := by
  induction cs generalizing s with
  | nil => simp at hmem
  | cons c rest ih =>
    obtain ⟨hnot, hnd'⟩ := List.nodup_cons.mp hnd
    simp only [loopPass, List.foldl_cons]
    by_cases hc : c = chat
    · subst hc
      obtain ⟨a, b⟩ := remindChat_first clock s c hdb hclock
      obtain ⟨a', b'⟩ := loopPass_others clock rest (remindChat clock s c) c hnot
      simp only [loopPass] at a' b'
      exact ⟨a'.trans a, b'.trans b⟩
    · have hmem' : chat ∈ rest := by
        rcases List.mem_cons.mp hmem with e | e
        · exact absurd e.symm hc
        · exact e
      obtain ⟨a, b⟩ := remindChat_other clock s c chat hc
      obtain ⟨a', b'⟩ := ih (remindChat clock s c) (a.trans hdb) hmem' hnd'
      simp only [loopPass] at a' b'
      exact ⟨a', by rw [b', b]⟩

theorem passes_quiet (chat t : Int) (ps : List (List Int × (Int → Int × Int)))
    (s : ReminderState) (hdb : s.db chat = some t)
    (hclock : ∀ q ∈ ps, (q.2 chat).1 ≤ (t + 86400) * Second) :
    (ps.foldl loopPass s).db chat = some t ∧
      (ps.foldl loopPass s).sent.count chat = s.sent.count chat := by
  induction ps generalizing s with
  | nil => exact ⟨hdb, rfl⟩
  | cons p rest ih =>
    obtain ⟨a, b⟩ := loopPass_quiet p.2 p.1 s chat t hdb (hclock p (List.mem_cons_self _ _))
    obtain ⟨a', b'⟩ := ih (loopPass s (p.1, p.2)) a
      (fun q hq => hclock q (List.mem_cons_of_mem _ hq))
    simp only [List.foldl_cons]
    exact ⟨a', b'.trans b⟩

/-- C13: for a chat that has settings and no recorded reminder, `Loop` run
for one tick and then cancelled (two passes, the clock past the first day of
the epoch, the tick within 24 hours of the recorded time) sends exactly one
notification to the chat; in general, once the reminder time `t` of a chat is
recorded, no pass whose clock reading is not after `t + 24h` sends a
notification to the chat, and `t` stays recorded. -/
theorem reminder_once (chat : Int) (db : Reminders)
    (first tick : List Int × (Int → Int × Int))
    (hnone : db chat = none) (hmem : chat ∈ first.1) (hnd : first.1.Nodup)
    (hclock : 24 * Hour < (first.2 chat).1)
    (hsoon : (tick.2 chat).1 ≤ ((first.2 chat).2 + 86400) * Second) :
    (Loop { db := db, sent := [] } first [tick]).sent.count chat = 1 ∧
    ∀ (s : ReminderState) (t : Int) (p : List Int × (Int → Int × Int))
      (ps : List (List Int × (Int → Int × Int))),
      s.db chat = some t → (∀ q ∈ p :: ps, (q.2 chat).1 ≤ (t + 86400) * Second) →
        (Loop s p ps).sent.count chat = s.sent.count chat ∧ (Loop s p ps).db chat = some t := by
  constructor
  · obtain ⟨a, b⟩ := loopPass_first first.2 first.1 { db := db, sent := [] } chat hnone hmem hnd
      hclock
    obtain ⟨-, b'⟩ := loopPass_quiet tick.2 tick.1 _ chat _ a hsoon
    simp only [Loop, List.foldl_cons, List.foldl_nil]
    rw [b', b]
    rfl
  · intro s t p ps hdb hq
    obtain ⟨a, b⟩ := passes_quiet chat t (p :: ps) s hdb hq
    exact ⟨b, a⟩

/-- Witness of C13: chat 0 alone in the settings, an empty table, both
passes at second 1700000000. -/
theorem reminder_once_witness :
    ((fun _ => none : Reminders) 0 = none ∧ (0 : Int) ∈ [(0 : Int)] ∧ [(0 : Int)].Nodup ∧
      24 * Hour < 1700000000 * Second ∧
      1700000000 * Second ≤ ((1700000000 : Int) + 86400) * Second) ∧
    ((Loop { db := fun _ => none, sent := [] }
        ([0], fun _ => (1700000000 * Second, 1700000000))
        [([0], fun _ => (1700000000 * Second, 1700000000))]).sent.count 0 = 1 ∧
    ∀ (s : ReminderState) (t : Int) (p : List Int × (Int → Int × Int))
      (ps : List (List Int × (Int → Int × Int))),
      s.db 0 = some t → (∀ q ∈ p :: ps, (q.2 0).1 ≤ (t + 86400) * Second) →
        (Loop s p ps).sent.count 0 = s.sent.count 0 ∧ (Loop s p ps).db 0 = some t) :=
  ⟨⟨rfl, by decide, by decide, by decide, by decide⟩,
    reminder_once 0 (fun _ => none) ([0], fun _ => (1700000000 * Second, 1700000000))
      ([0], fun _ => (1700000000 * Second, 1700000000)) rfl (by decide) (by decide)
      (by decide) (by decide)⟩

/-! ## C14: the correction for late reviews -/

theorem effectiveIvl_eq_max (ivl d : Int) : effectiveIvl ivl d = max ivl d := by
  unfold effectiveIvl
  split_ifs <;> omega

/-- A review at least `k` days after the last one has at least `k` elapsed
days. -/
theorem elapsedDays_ge_of_le (oob : ℚ → Int) (now last_update k : Int) (hk0 : 0 ≤ k)
    (hk : k ≤ 106751) (h : k * (24 * Hour) ≤ now - last_update * Second) :
    k ≤ elapsedDays oob now last_update := by
  have hH : Hour = 3600000000000 := by decide
  obtain ⟨r1, r2⟩ := timeSub_range now (last_update * Second)
  have hD : k * (24 * Hour) ≤ timeSub now (last_update * Second) := by
    unfold timeSub minInt64 maxInt64
    rw [hH] at h ⊢
    omega
  obtain ⟨-, hup⟩ := elapsedDays_bounds oob now last_update
  unfold elapsedDays at hup ⊢
  generalize timeSub now (last_update * Second) = d at r1 r2 hD hup ⊢
  obtain ⟨a1, a2, a3, a4⟩ := hours_parts_bounds d r1 r2
  have hparts : 24 * k ≤ d.tdiv Hour ∧ 0 ≤ d.tmod Hour := by
    rw [hH] at hD ⊢
    rcases tdiv_tmod_cases d (b := 3600000000000) (by norm_num) with
      ⟨_, hd, hm⟩ | ⟨hneg, _, _⟩
    · rw [hd, hm]; omega
    · omega
  have e1 : F64.ofInt (d.tdiv Hour) = d.tdiv Hour :=
    ofInt_exact (by rw [abs_le]; constructor <;> omega)
  have e2 : F64.ofInt (d.tmod Hour) = d.tmod Hour :=
    ofInt_exact (by rw [abs_le]; constructor <;> omega)
  have qh : ((24 * k : Int) : ℚ) ≤ (d.tdiv Hour : ℚ) := by exact_mod_cast hparts.1
  have qr : (0 : ℚ) ≤ (d.tmod Hour : ℚ) := by exact_mod_cast hparts.2
  have f : (0 : ℚ) ≤ F64.div (d.tmod Hour) 3600000000000 :=
    F64.round_nonneg (div_nonneg qr (by norm_num))
  have s : ((24 * k : Int) : ℚ) ≤ Duration.Hours d := by
    unfold Duration.Hours
    rw [e1, e2]
    exact F64.intCast_le_round (by rw [abs_le]; constructor <;> omega) (by linarith)
  have q : ((k : Int) : ℚ) ≤ F64.div (Duration.Hours d) 24 := by
    apply F64.intCast_le_round (by rw [abs_le]; constructor <;> omega)
    rw [le_div_iff₀ (by norm_num)]
    push_cast at s ⊢
    linarith
  have hb := hours_bounds d r1 r2
  have c2 : F64.div (Duration.Hours d) 24 ≤ ((106752 : Int) : ℚ) := by
    apply F64.round_le_intCast (by norm_num)
    rw [div_le_iff₀ (by norm_num)]; push_cast; linarith [hb.2]
  rw [F64.toInt64_of_bounds]
  · exact F64.intCast_le_trunc q
  · refine le_trans ?_ q
    have : minInt64 ≤ k := by unfold minInt64; omega
    exact_mod_cast this
  · refine le_trans c2 ?_
    unfold maxInt64; push_cast; norm_num

/-- For a delay of less than 61 days the elapsed days are the whole days of
the delay. -/
theorem elapsedDays_eq (oob : ℚ → Int) (now last_update k : Int) (hk0 : 0 ≤ k) (hk : k ≤ 60)
    (h1 : k * (24 * Hour) ≤ now - last_update * Second)
    (h2 : now - last_update * Second < (k + 1) * (24 * Hour)) :
    elapsedDays oob now last_update = k :=
  le_antisymm (elapsedDays_le_of_lt oob now last_update k hk0 hk h2)
    (elapsedDays_ge_of_le oob now last_update k hk0 (by omega) h1)

/-- The interval and the ease `Answer` writes are those of any other stored
interval and elapsed days with the same maximum. -/
theorem schedule_depends_on_max (oob : ℚ → Int) (againDelay now t ease s last_update : Int)
    (answ : AnswerEase) (now' t' s' last_update' : Int)
    (h : max s (elapsedDays oob now last_update) = max s' (elapsedDays oob now' last_update')) :
    (schedule oob againDelay now t ease s last_update answ).ivl =
        (schedule oob againDelay now' t' ease s' last_update' answ).ivl ∧
      (schedule oob againDelay now t ease s last_update answ).ease =
        (schedule oob againDelay now' t' ease s' last_update' answ).ease := by
  rw [schedule_ease, schedule_ease]
  refine ⟨?_, rfl⟩
  by_cases hq : answ = AnswerAgain
  · unfold schedule
    simp only [if_pos hq]
  · rw [schedule_ivl _ _ _ _ _ _ _ _ hq, schedule_ivl _ _ _ _ _ _ _ _ hq,
      effectiveIvl_eq_max, effectiveIvl_eq_max, h]

/-- From 171 days on the `float64` sum in `Duration.Hours` no longer resolves
the last nanoseconds before a day boundary: a review one nanosecond before
171 days have passed counts 171 elapsed days. -/
theorem elapsedDays_before_boundary (oob : ℚ → Int) :
    elapsedDays oob (14774400 * Second - 1) 0 = 171 := by
  have hsub : timeSub (14774400 * Second - 1) (0 * Second) = 14774399999999999 := by decide
  have h1 : (14774399999999999 : Int).tdiv Hour = 4103 := by decide
  have h2 : (14774399999999999 : Int).tmod Hour = 3599999999999 := by decide
  have e1 : F64.ofInt 4103 = ((4103 : Int) : ℚ) := ofInt_exact (by norm_num)
  have e2 : F64.ofInt 3599999999999 = ((3599999999999 : Int) : ℚ) := ofInt_exact (by norm_num)
  -- the fraction of an hour lies in `[1 - 3 * 2^(-43), 1]`
  have flo : (8796093022205 : ℚ) / 8796093022208 ≤
      F64.round (((3599999999999 : Int) : ℚ) / 3600000000000) := by
    have hr := F64.round_repr 8796093022205 (-43) (by norm_num)
    have hm := F64.round_mono (x := ((8796093022205 : Int) : ℚ) * (2 : ℚ) ^ (-43 : Int))
      (y := ((3599999999999 : Int) : ℚ) / 3600000000000) (by norm_num)
    rw [hr] at hm
    norm_num at hm ⊢
    exact hm
  have fhi : F64.round (((3599999999999 : Int) : ℚ) / 3600000000000) ≤ 1 := by
    have := F64.round_le_intCast (n := 1)
      (x := ((3599999999999 : Int) : ℚ) / 3600000000000) (by norm_num) (by norm_num)
    simpa using this
  -- the sum rounds to 4104
  have hs : F64.round (((4103 : Int) : ℚ) +
      F64.round (((3599999999999 : Int) : ℚ) / 3600000000000)) = 4104 := by
    apply le_antisymm
    · have := F64.round_le_intCast (n := 4104)
        (x := ((4103 : Int) : ℚ) + F64.round (((3599999999999 : Int) : ℚ) / 3600000000000))
        (by norm_num) (by push_cast; linarith)
      simpa using this
    · have hr : F64.round ((4104 : ℚ) - 3 / 8796093022208) = 4104 := by
        rw [F64.round_eq_of_scaled (-40) 4512395720392704] <;>
          norm_num [abs_lt, abs_of_pos]
      have hm := F64.round_mono (x := (4104 : ℚ) - 3 / 8796093022208)
        (y := ((4103 : Int) : ℚ) + F64.round (((3599999999999 : Int) : ℚ) / 3600000000000))
        (by push_cast; linarith)
      rw [hr] at hm
      exact hm
  have hq : F64.round ((4104 : ℚ) / 24) = ((171 : Int) : ℚ) := by
    have := F64.round_intCast 171 (by norm_num)
    norm_num at this ⊢
    exact this
  unfold elapsedDays Duration.Hours F64.add F64.div
  rw [hsub, h1, h2, e1, e2, hs, hq, toInt64_intCast oob 171 (by decide) (by decide)]

/-- Rounding a non-negative number to `float64` raises it by at most the
factor `1 + 2^(-53)`. -/
theorem round_le_mul {x : ℚ} (hx : 0 ≤ x) : F64.round x ≤ x * (1 + 1 / 2 ^ 53) := by
  rcases eq_or_lt_of_le hx with h | h
  · rw [← h, F64.round_zero]; norm_num
  · obtain ⟨h1, -⟩ := F64.scaled_bounds h
    have hp := F64.two_zpow_pos (F64.ulpExp x)
    have hb := F64.abs_rne_sub_le (x / (2 : ℚ) ^ F64.ulpExp x)
    rw [abs_le] at hb
    rw [F64.round_of_ne_zero (ne_of_gt h)]
    have hq : (F64.rne (x / (2 : ℚ) ^ F64.ulpExp x) : ℚ) ≤
        x / (2 : ℚ) ^ F64.ulpExp x * (1 + 1 / 2 ^ 53) := by
      have : (1 : ℚ) / 2 ≤ x / (2 : ℚ) ^ F64.ulpExp x * (1 / 2 ^ 53) := by
        calc (1 : ℚ) / 2 = (2 : ℚ) ^ (52 : ℕ) * (1 / 2 ^ 53) := by norm_num
          _ ≤ _ := mul_le_mul_of_nonneg_right h1 (by norm_num)
      linarith [hb.2]
    calc _ ≤ x / (2 : ℚ) ^ F64.ulpExp x * (1 + 1 / 2 ^ 53) * (2 : ℚ) ^ F64.ulpExp x :=
          mul_le_mul_of_nonneg_right hq (le_of_lt hp)
      _ = x * (1 + 1 / 2 ^ 53) := by field_simp; ring

/-- A review whose delay `d` (in range of a `Duration`) falls short of
`k + 1` days by more than `d / 2^51` nanoseconds has at most `k` elapsed
days. -/
theorem elapsedDays_le_of_margin (oob : ℚ → Int) (now last_update k : Int) (hk0 : 0 ≤ k)
    (h0 : 0 ≤ timeSub now (last_update * Second))
    (h : timeSub now (last_update * Second) + timeSub now (last_update * Second) / 2 ^ 51 <
      (k + 1) * (24 * Hour)) :
    elapsedDays oob now last_update ≤ k := by
  have hH : Hour = 3600000000000 := by decide
  obtain ⟨r1, r2⟩ := timeSub_range now (last_update * Second)
  obtain ⟨lo, -⟩ := elapsedDays_bounds oob now last_update
  unfold elapsedDays at lo ⊢
  generalize timeSub now (last_update * Second) = d at r1 r2 h0 h lo ⊢
  obtain ⟨a1, a2, a3, a4⟩ := hours_parts_bounds d r1 r2
  rw [hH] at h
  have hparts : d.tdiv Hour = d / 3600000000000 ∧ d.tmod Hour = d % 3600000000000 := by
    rw [hH]
    rcases tdiv_tmod_cases d (b := 3600000000000) (by norm_num) with
      ⟨_, hd, hm⟩ | ⟨hneg, _, _⟩
    · exact ⟨hd, hm⟩
    · omega
  have hh0 : 0 ≤ d.tdiv Hour := by rw [hparts.1]; omega
  have hn0 : 0 ≤ d.tmod Hour := by rw [hparts.2]; omega
  have hsum : d = d.tdiv Hour * 3600000000000 + d.tmod Hour := by
    rw [hparts.1, hparts.2]; omega
  have e1 : F64.ofInt (d.tdiv Hour) = d.tdiv Hour :=
    ofInt_exact (by rw [abs_le]; constructor <;> omega)
  have e2 : F64.ofInt (d.tmod Hour) = d.tmod Hour :=
    ofInt_exact (by rw [abs_le]; constructor <;> omega)
  have qh : (0 : ℚ) ≤ (d.tdiv Hour : ℚ) := by exact_mod_cast hh0
  have qn : (0 : ℚ) ≤ (d.tmod Hour : ℚ) := by exact_mod_cast hn0
  have qd : (d : ℚ) = (d.tdiv Hour : ℚ) * 3600000000000 + (d.tmod Hour : ℚ) := by
    exact_mod_cast hsum
  have qd0 : (0 : ℚ) ≤ (d : ℚ) := by exact_mod_cast h0
  -- the delay with its margin, as rationals
  have hm : (d : ℚ) * (1 + 1 / 2 ^ 51) < ((k + 1 : Int) : ℚ) * 86400000000000 := by
    have i1 : d + d / 2 ^ 51 + 1 ≤ (k + 1) * 86400000000000 := by omega
    have i2 : (d : ℚ) + ((d / 2 ^ 51 : Int) : ℚ) + 1 ≤ ((k + 1 : Int) : ℚ) * 86400000000000 := by
      exact_mod_cast i1
    have i3 : (d : ℚ) / 2 ^ 51 < ((d / 2 ^ 51 : Int) : ℚ) + 1 := by
      have i4 : d < (d / 2 ^ 51 + 1) * 2 ^ 51 := by omega
      have i5 : (d : ℚ) < (((d / 2 ^ 51 : Int) : ℚ) + 1) * 2 ^ 51 := by exact_mod_cast i4
      rw [div_lt_iff₀ (by norm_num)]
      exact i5
    have i6 : (d : ℚ) * (1 + 1 / 2 ^ 51) = (d : ℚ) + (d : ℚ) / 2 ^ 51 := by ring
    rw [i6]
    linarith
  -- the three roundings
  have f0 : (0 : ℚ) ≤ (d.tmod Hour : ℚ) / 3600000000000 := div_nonneg qn (by norm_num)
  have f1 : F64.div (d.tmod Hour) 3600000000000 ≤
      (d.tmod Hour : ℚ) / 3600000000000 * (1 + 1 / 2 ^ 53) := round_le_mul f0
  have f2 : (0 : ℚ) ≤ F64.div (d.tmod Hour) 3600000000000 := F64.round_nonneg f0
  have s1 : Duration.Hours d ≤
      ((d.tdiv Hour : ℚ) + F64.div (d.tmod Hour) 3600000000000) * (1 + 1 / 2 ^ 53) := by
    unfold Duration.Hours
    rw [e1, e2]
    exact round_le_mul (by linarith)
  have s0 : (0 : ℚ) ≤ Duration.Hours d := by
    unfold Duration.Hours
    rw [e1, e2]
    exact F64.round_nonneg (by linarith)
  have s2 : Duration.Hours d ≤ (d : ℚ) / 3600000000000 * (1 + 1 / 2 ^ 53) ^ 2 := by
    have t1 : (d.tdiv Hour : ℚ) + F64.div (d.tmod Hour) 3600000000000 ≤
        (d : ℚ) / 3600000000000 * (1 + 1 / 2 ^ 53) := by
      have t2 : (d : ℚ) / 3600000000000 =
          (d.tdiv Hour : ℚ) + (d.tmod Hour : ℚ) / 3600000000000 := by
        rw [qd]; field_simp
      rw [t2]
      have t3 : (0 : ℚ) ≤ (d.tdiv Hour : ℚ) * (1 / 2 ^ 53) := mul_nonneg qh (by norm_num)
      linarith
    calc Duration.Hours d ≤ _ := s1
      _ ≤ (d : ℚ) / 3600000000000 * (1 + 1 / 2 ^ 53) * (1 + 1 / 2 ^ 53) :=
          mul_le_mul_of_nonneg_right t1 (by norm_num)
      _ = _ := by ring
  have q1 : F64.div (Duration.Hours d) 24 ≤ Duration.Hours d / 24 * (1 + 1 / 2 ^ 53) :=
    round_le_mul (div_nonneg s0 (by norm_num))
  have q2 : F64.div (Duration.Hours d) 24 ≤ (d : ℚ) * (1 + 1 / 2 ^ 51) / 86400000000000 := by
    have t4 : Duration.Hours d / 24 * (1 + 1 / 2 ^ 53) ≤
        (d : ℚ) / 3600000000000 * (1 + 1 / 2 ^ 53) ^ 2 / 24 * (1 + 1 / 2 ^ 53) :=
      mul_le_mul_of_nonneg_right (div_le_div_of_nonneg_right s2 (by norm_num)) (by norm_num)
    have t5 : (d : ℚ) / 3600000000000 * (1 + 1 / 2 ^ 53) ^ 2 / 24 * (1 + 1 / 2 ^ 53) =
        (d : ℚ) * (1 + 1 / 2 ^ 53) ^ 3 / 86400000000000 := by ring
    have t6 : (d : ℚ) * (1 + 1 / 2 ^ 53) ^ 3 ≤ (d : ℚ) * (1 + 1 / 2 ^ 51) :=
      mul_le_mul_of_nonneg_left (by norm_num) qd0
    have t7 : (d : ℚ) * (1 + 1 / 2 ^ 53) ^ 3 / 86400000000000 ≤
        (d : ℚ) * (1 + 1 / 2 ^ 51) / 86400000000000 :=
      div_le_div_of_nonneg_right t6 (by norm_num)
    linarith
  have q3 : F64.div (Duration.Hours d) 24 < ((k + 1 : Int) : ℚ) := by
    refine lt_of_le_of_lt q2 ?_
    rw [div_lt_iff₀ (by norm_num)]
    exact hm
  have q0 : (0 : ℚ) ≤ F64.div (Duration.Hours d) 24 :=
    F64.round_nonneg (div_nonneg s0 (by norm_num))
  have hb := hours_bounds d r1 r2
  have c2 : F64.div (Duration.Hours d) 24 ≤ ((106752 : Int) : ℚ) := by
    apply F64.round_le_intCast (by norm_num)
    rw [div_le_iff₀ (by norm_num)]; push_cast; linarith [hb.2]
  rw [F64.toInt64_of_bounds]
  · have := trunc_lt_of_lt (by omega : (0 : Int) < k + 1) q3
    omega
  · refine le_trans ?_ q0
    unfold minInt64; push_cast; norm_num
  · refine le_trans c2 ?_
    unfold maxInt64; push_cast; norm_num

/-- For a stored interval `s ≥ 0` and a delay that line 248 resolves (below
61 days, or in range of a `Duration` and short of the next whole day by more
than `delay / 2^51` nanoseconds) the effective interval is the larger of `s`
and the whole days of the delay. -/
theorem effectiveIvl_whole_days (oob : ℚ → Int) (now last_update s : Int) (hs : 0 ≤ s)
    (hd : now - last_update * Second < 61 * (24 * Hour) ∨
      (now - last_update * Second ≤ maxInt64 ∧
        (now - last_update * Second) % (24 * Hour) + (now - last_update * Second) / 2 ^ 51 <
          24 * Hour)) :
    effectiveIvl s (elapsedDays oob now last_update) = max s (specElapsedDays now last_update) := by
  have hH : Hour = 3600000000000 := by decide
  rw [effectiveIvl_eq_max]
  unfold specElapsedDays
  rcases lt_or_le (now - last_update * Second) 0 with hneg | hpos
  · have h1 := elapsedDays_le_of_lt oob now last_update 0 (le_refl 0) (by decide)
      (by rw [hH]; omega)
    have h2 : (now - last_update * Second) / (24 * Hour) < 0 := by rw [hH]; omega
    omega
  · rcases lt_or_le (now - last_update * Second) (61 * (24 * Hour)) with hlt | hge
    · have h1 := elapsedDays_eq oob now last_update ((now - last_update * Second) / (24 * Hour))
        (by rw [hH]; omega) (by rw [hH] at hlt ⊢; omega) (by rw [hH]; omega)
        (by rw [hH]; omega)
      rw [h1]
    · obtain ⟨hmax, hmargin⟩ : now - last_update * Second ≤ maxInt64 ∧
          (now - last_update * Second) % (24 * Hour) + (now - last_update * Second) / 2 ^ 51 <
            24 * Hour := by
        rcases hd with hd | hd
        · omega
        · exact hd
      have hsub : timeSub now (last_update * Second) = now - last_update * Second := by
        unfold timeSub minInt64 maxInt64
        unfold maxInt64 at hmax
        omega
      have h1 := elapsedDays_ge_of_le oob now last_update
        ((now - last_update * Second) / (24 * Hour))
        (by rw [hH]; omega) (by unfold maxInt64 at hmax; rw [hH]; omega) (by rw [hH]; omega)
      have h2 := elapsedDays_le_of_margin oob now last_update
        ((now - last_update * Second) / (24 * Hour)) (by rw [hH]; omega)
        (by rw [hsub]; exact hpos) (by rw [hsub]; rw [hH] at hmargin ⊢; omega)
      have h3 : elapsedDays oob now last_update = (now - last_update * Second) / (24 * Hour) :=
        le_antisymm h2 h1
      rw [h3]

/-- A delay beyond the range of a `Duration` counts as 106751 elapsed
days. -/
theorem elapsedDays_saturated (oob : ℚ → Int) :
    elapsedDays oob (10000000000 * Second) 0 = 106751 :=
  le_antisymm
    (elapsedDays_le_of_margin oob (10000000000 * Second) 0 106751 (by decide) (by decide)
      (by decide))
    (elapsedDays_ge_of_le oob (10000000000 * Second) 0 106751 (by decide) (by decide)
      (by decide))

/-- C14, counterexample: `alma` with stored interval 0, answered `Good` one
nanosecond before 171 days have passed, has 170 elapsed whole days and gets
interval 427, where stored interval 170 answered with no elapsed days gives
425; answered after `10^19` nanoseconds (more than a `Duration` holds) it
has 115740 elapsed whole days and gets interval 266877, where stored interval
115740 answered with no elapsed days gives 289350. -/
theorem late_review_not_whole_days :
    (specElapsedDays (14774400 * Second - 1) 0 = 170 ∧
      Answer oobAmd64 { emptyStore with db := [freshAlma] } (14774400 * Second - 1) 14774399 1
        "alma".toList AnswerGood =
        some { emptyStore with
          db := [{ freshAlma with ease := some 250, ivl := some 427,
                                  last_updated_seconds := 14774399,
                                  next_review_seconds := some 51667199 }] } ∧
      Answer oobAmd64 { emptyStore with db := [halfYearAlma] } 0 0 1 "alma".toList AnswerGood =
        some { emptyStore with
          db := [{ freshAlma with ease := some 250, ivl := some 425,
                                  last_updated_seconds := 0,
                                  next_review_seconds := some 36720000 }] }) ∧
    (specElapsedDays (10000000000 * Second) 0 = 115740 ∧
      Answer oobAmd64 { emptyStore with db := [freshAlma] } (10000000000 * Second) 10000000000 1
        "alma".toList AnswerGood =
        some { emptyStore with
          db := [{ freshAlma with ease := some 250, ivl := some 266877,
                                  last_updated_seconds := 10000000000,
                                  next_review_seconds := some 33058172800 }] } ∧
      Answer oobAmd64 { emptyStore with db := [agesAlma] } 0 0 1 "alma".toList AnswerGood =
        some { emptyStore with
          db := [{ freshAlma with ease := some 250, ivl := some 289350,
                                  last_updated_seconds := 0,
                                  next_review_seconds := some 24999840000 }] }) := by
  have d0 : elapsedDays oobAmd64 0 0 = 0 := by simpa using elapsedDays_zero oobAmd64 0
  have hl : freshAlma.last_updated_seconds = 0 := rfl
  refine ⟨⟨by decide, ?_, ?_⟩, by decide, ?_, ?_⟩
  · rw [answer_good_250 oobAmd64 freshAlma (14774400 * Second - 1) 14774399 0 427 (by decide)
      rfl rfl
      (by
        rw [hl, elapsedDays_before_boundary]
        exact growIvl_five_halves oobAmd64 171 427 (by decide) (by decide) (by decide)
          (by decide))]
    decide
  · rw [answer_good_250 oobAmd64 halfYearAlma 0 0 170 425 (by decide) rfl rfl
      (by
        have hl' : halfYearAlma.last_updated_seconds = 0 := rfl
        rw [hl', d0]
        exact growIvl_five_halves oobAmd64 170 425 (by decide) (by decide) (by decide)
          (by decide))]
    decide
  · rw [answer_good_250 oobAmd64 freshAlma (10000000000 * Second) 10000000000 0 266877
      (by decide) rfl rfl
      (by
        rw [hl, elapsedDays_saturated]
        exact growIvl_five_halves oobAmd64 106751 266877 (by decide) (by decide) (by decide)
          (by decide))]
    decide
  · rw [answer_good_250 oobAmd64 agesAlma 0 0 115740 289350 (by decide) rfl rfl
      (by
        have hl' : agesAlma.last_updated_seconds = 0 := rfl
        rw [hl', d0]
        exact growIvl_five_halves oobAmd64 115740 289350 (by decide) (by decide) (by decide)
          (by decide))]
    decide

/-- C14, amended: for a stored interval `s ≥ 0`, a last review time that
`time.Unix` represents without wrap-around, and a delay `d` since the last
review that is below 61 days, or is at most `2^63 - 1` nanoseconds and falls
short of the next whole day by more than `d / 2^51` nanoseconds, the interval
and the ease stored by `Answer` depend on `s` and the elapsed whole days
`e = ⌊d / 24 h⌋` only through `max(s, e)`: the effective interval is
`max(s, e)`, answering gives the same new interval and ease as answering an
item with stored interval `max(s, e)` with no elapsed days, any two such
reviews with the same maximum give the same result, and when `e ≤ s` the
stored interval `s` itself is used. -/
theorem late_review (oob : ℚ → Int) (againDelay now t ease s last_update : Int)
    (answ : AnswerEase) (now₀ t₀ last_update₀ : Int)
    (hs : 0 ≤ s)
    (_hlast : last_update ≤ maxInt64 - 62135596800)
    (hd : now - last_update * Second < 61 * (24 * Hour) ∨
      (now - last_update * Second ≤ maxInt64 ∧
        (now - last_update * Second) % (24 * Hour) + (now - last_update * Second) / 2 ^ 51 <
          24 * Hour))
    (_hlast₀ : last_update₀ ≤ maxInt64 - 62135596800)
    (h0 : specElapsedDays now₀ last_update₀ = 0) :
    effectiveIvl s (elapsedDays oob now last_update) = max s (specElapsedDays now last_update) ∧
    ((schedule oob againDelay now t ease s last_update answ).ivl =
        (schedule oob againDelay now₀ t₀ ease (max s (specElapsedDays now last_update))
          last_update₀ answ).ivl ∧
      (schedule oob againDelay now t ease s last_update answ).ease =
        (schedule oob againDelay now₀ t₀ ease (max s (specElapsedDays now last_update))
          last_update₀ answ).ease) ∧
    (∀ (now' t' s' last_update' : Int), 0 ≤ s' →
      last_update' ≤ maxInt64 - 62135596800 →
      (now' - last_update' * Second < 61 * (24 * Hour) ∨
        (now' - last_update' * Second ≤ maxInt64 ∧
          (now' - last_update' * Second) % (24 * Hour) + (now' - last_update' * Second) / 2 ^ 51 <
            24 * Hour)) →
      max s (specElapsedDays now last_update) = max s' (specElapsedDays now' last_update') →
        (schedule oob againDelay now t ease s last_update answ).ivl =
            (schedule oob againDelay now' t' ease s' last_update' answ).ivl ∧
          (schedule oob againDelay now t ease s last_update answ).ease =
            (schedule oob againDelay now' t' ease s' last_update' answ).ease) ∧
    (specElapsedDays now last_update ≤ s →
      effectiveIvl s (elapsedDays oob now last_update) = s ∧
      (schedule oob againDelay now t ease s last_update answ).ivl =
        (schedule oob againDelay now₀ t₀ ease s last_update₀ answ).ivl) := by
  have hH : Hour = 3600000000000 := by decide
  have he := effectiveIvl_whole_days oob now last_update s hs hd
  have hd₀ : 0 ≤ now₀ - last_update₀ * Second ∧ now₀ - last_update₀ * Second < 24 * Hour := by
    unfold specElapsedDays at h0
    rw [hH] at h0 ⊢
    omega
  have he₀ : elapsedDays oob now₀ last_update₀ = 0 :=
    elapsedDays_eq oob now₀ last_update₀ 0 (le_refl 0) (by decide) (by omega) (by omega)
  have hspec : 0 ≤ max s (specElapsedDays now last_update) := le_trans hs (le_max_left _ _)
  rw [effectiveIvl_eq_max] at he
  refine ⟨by rw [effectiveIvl_eq_max]; exact he, ?_, ?_, ?_⟩
  · apply schedule_depends_on_max
    rw [he, he₀]
    omega
  · intro now' t' s' last_update' hs' _ hd' hmax
    have he' := effectiveIvl_whole_days oob now' last_update' s' hs' hd'
    rw [effectiveIvl_eq_max] at he'
    apply schedule_depends_on_max
    rw [he, he', hmax]
  · intro hle
    have hm : max s (specElapsedDays now last_update) = s := max_eq_left hle
    refine ⟨by rw [effectiveIvl_eq_max, he, hm], ?_⟩
    apply (schedule_depends_on_max oob againDelay now t ease s last_update answ now₀ t₀ s
      last_update₀ _).1
    rw [he, he₀, hm]
    omega

/-- Witness of C14: stored interval 3, answered `Good` ten and a half days
after the last review, against an item answered on the day of its last
review. -/
theorem late_review_witness :
    ((0 : Int) ≤ 3 ∧ (0 : Int) ≤ maxInt64 - 62135596800 ∧
      (907200 * Second - 0 * Second < 61 * (24 * Hour) ∨
        (907200 * Second - 0 * Second ≤ maxInt64 ∧
          (907200 * Second - 0 * Second) % (24 * Hour) + (907200 * Second - 0 * Second) / 2 ^ 51 <
            24 * Hour)) ∧
      specElapsedDays (3600 * Second) 0 = 0) ∧
    (effectiveIvl 3 (elapsedDays oobAmd64 (907200 * Second) 0) =
        max 3 (specElapsedDays (907200 * Second) 0) ∧
    ((schedule oobAmd64 (20 * Second) (907200 * Second) 907200 250 3 0 AnswerGood).ivl =
        (schedule oobAmd64 (20 * Second) (3600 * Second) 3600 250
          (max 3 (specElapsedDays (907200 * Second) 0)) 0 AnswerGood).ivl ∧
      (schedule oobAmd64 (20 * Second) (907200 * Second) 907200 250 3 0 AnswerGood).ease =
        (schedule oobAmd64 (20 * Second) (3600 * Second) 3600 250
          (max 3 (specElapsedDays (907200 * Second) 0)) 0 AnswerGood).ease) ∧
    (∀ (now' t' s' last_update' : Int), 0 ≤ s' →
      last_update' ≤ maxInt64 - 62135596800 →
      (now' - last_update' * Second < 61 * (24 * Hour) ∨
        (now' - last_update' * Second ≤ maxInt64 ∧
          (now' - last_update' * Second) % (24 * Hour) + (now' - last_update' * Second) / 2 ^ 51 <
            24 * Hour)) →
      max 3 (specElapsedDays (907200 * Second) 0) = max s' (specElapsedDays now' last_update') →
        (schedule oobAmd64 (20 * Second) (907200 * Second) 907200 250 3 0 AnswerGood).ivl =
            (schedule oobAmd64 (20 * Second) now' t' 250 s' last_update' AnswerGood).ivl ∧
          (schedule oobAmd64 (20 * Second) (907200 * Second) 907200 250 3 0 AnswerGood).ease =
            (schedule oobAmd64 (20 * Second) now' t' 250 s' last_update' AnswerGood).ease) ∧
    (specElapsedDays (907200 * Second) 0 ≤ 3 →
      effectiveIvl 3 (elapsedDays oobAmd64 (907200 * Second) 0) = 3 ∧
      (schedule oobAmd64 (20 * Second) (907200 * Second) 907200 250 3 0 AnswerGood).ivl =
        (schedule oobAmd64 (20 * Second) (3600 * Second) 3600 250 3 0 AnswerGood).ivl)) :=
  ⟨⟨by decide, by decide, Or.inl (by decide), by decide⟩,
    late_review oobAmd64 (20 * Second) (907200 * Second) 907200 250 3 0 AnswerGood
      (3600 * Second) 3600 0 (by decide) (by decide) (Or.inl (by decide)) (by decide)
      (by decide)⟩

end WordsBot
